import Mathlib

/-!
Shallow embedding of the tab / persistence model of `popup.js` from the
chrome-extension-notebook repository, together with its pure text-transform
utilities.  Timestamps (`Date.now()`) are modelled as natural numbers and
threaded explicitly through the operations that read the clock.  DOM side
effects are modelled by the data they ultimately change: the editor surface
is the string `editorHTML`, the debounce timer is the optional absolute
deadline `saveTimer`.
-/

namespace Notebook

/-- One note/tab, as stored in `STATE.tabs` (`popup.js` line 16). -/
structure Note where
  id : String
  name : String
  content : String
  createdAt : Nat
  updatedAt : Nat
deriving DecidableEq

/-- Placeholder note used only to totalise list indexing at positions where
the source code guarantees the index is in bounds. -/
def dummyNote : Note :=
  { id := "", name := "", content := "", createdAt := 0, updatedAt := 0 }

/-- The mutable module state `STATE` of `popup.js` (lines 15-20), extended
with the editor surface content (`EDITOR.el.innerHTML`), which the tab
operations read and write through `EDITOR.getHTML` / `EDITOR.setHTML`.
`saveTimer` holds the absolute deadline of the armed debounce timer. -/
structure AppState where
  tabs : List Note
  activeTabId : Option String
  isDirty : Bool
  saveTimer : Option Nat
  editorHTML : String
deriving DecidableEq

/-- The persisted blob written by `STORAGE.flush` (`popup.js` lines 63-66). -/
structure Snapshot where
  activeTabId : Option String
  tabs : List Note
deriving DecidableEq

/-- `EDITOR.getHTML` (lines 793-797): an editor holding a lone `<br>` reads
as the empty string. -/
def getHTML (st : AppState) : String :=
  if st.editorHTML = "<br>" then "" else st.editorHTML

/-- The mutation pattern `const t = tabs.find((t) => t.id === aid); if (t)
{ t.content = html; t.updatedAt = now; }` used by `flush`, `switchTo` and
`createTab`: update the first note whose id matches. -/
def captureContent (aid : Option String) (html : String) (now : Nat) :
    List Note → List Note
  | [] => []
  | t :: ts =>
    if some t.id = aid then { t with content := html, updatedAt := now } :: ts
    else t :: captureContent aid html now ts

/-- `STORAGE.scheduleSave` (lines 69-76): set the dirty flag, cancel any armed
timer and arm a fresh one that fires 600 ms from now. -/
def scheduleSave (now : Nat) (st : AppState) : AppState :=
  { st with isDirty := true, saveTimer := some (now + 600) }

/-- `STORAGE.flush` (lines 50-67): clear the dirty flag and any pending timer,
capture the active note's live editor content into the model, then save the
`{activeTabId, tabs}` snapshot.  Returns the new state and the saved blob. -/
def flush (now : Nat) (st : AppState) : AppState × Snapshot :=
  let st1 : AppState := { st with isDirty := false, saveTimer := none }
  let st2 : AppState :=
    { st1 with tabs := captureContent st1.activeTabId (getHTML st1) now st1.tabs }
  (st2, { activeTabId := st2.activeTabId, tabs := st2.tabs })

/-- `Array.prototype.findIndex` on the id field (`-1` becomes `none`). -/
def findIndexId (tabId : String) : List Note → Option Nat
  | [] => none
  | t :: ts => if t.id = tabId then some 0 else (findIndexId tabId ts).map (· + 1)

/-- `Array.prototype.find` on the id field. -/
def findTab (tabId : String) : List Note → Option Note
  | [] => none
  | t :: ts => if t.id = tabId then some t else findTab tabId ts

/-- `TABS.switchTo` (lines 1490-1517).  The requestAnimationFrame callback is
run synchronously after the state update, as the single-threaded event loop
eventually does; `now` stands for the `Date.now()` readings. -/
def switchTo (now : Nat) (tabId : String) (skipSave : Bool) (st : AppState) :
    AppState :=
  if some tabId = st.activeTabId then st
  else
    let st1 : AppState :=
      if skipSave then st
      else { st with tabs := captureContent st.activeTabId (getHTML st) now st.tabs }
    let st2 : AppState := { st1 with activeTabId := some tabId }
    let newHTML : String :=
      match findTab tabId st2.tabs with
      | some t => t.content
      | none => ""
    scheduleSave now { st2 with editorHTML := newHTML }

/-- `TABS.createTab` (lines 1519-1545): capture the current note's live
content, append a fresh note named after the tab count, and switch to it
with `skipSave = true`. -/
def createTab (now : Nat) (st : AppState) : AppState :=
  let tabs1 := captureContent st.activeTabId (getHTML st) now st.tabs
  let newTab : Note :=
    { id := "tab-" ++ toString now
      name := "Note " ++ toString (tabs1.length + 1)
      content := ""
      createdAt := now
      updatedAt := now }
  switchTo now newTab.id true { st with tabs := tabs1 ++ [newTab] }

/-- `TABS.deleteTab` (lines 1547-1567).  `confirmOk` is the user's answer to
the `confirm` dialog. -/
def deleteTab (now : Nat) (tabId : String) (confirmOk : Bool) (st : AppState) :
    AppState :=
  if st.tabs.length ≤ 1 then st
  else
    match findIndexId tabId st.tabs with
    | none => st
    | some idx =>
      if !confirmOk then st
      else
        let tabs1 := st.tabs.eraseIdx idx
        let st1 : AppState := { st with tabs := tabs1 }
        let st2 : AppState :=
          if st.activeTabId = some tabId then
            let neighborIdx := min idx (tabs1.length - 1)
            let neighbor := tabs1.getD neighborIdx dummyNote
            { st1 with activeTabId := some neighbor.id, editorHTML := neighbor.content }
          else st1
        scheduleSave now st2

/-- The in-place rename of the first note whose id matches, performed by the
`commit` closure of `TABS.startRename` (lines 1461-1469). -/
def renameFirst (tabId newName : String) (now : Nat) : List Note → List Note
  | [] => []
  | t :: ts =>
    if t.id = tabId then { t with name := newName, updatedAt := now } :: ts
    else t :: renameFirst tabId newName now ts

/-- The commit handler built in `TABS.startRename` (lines 1461-1473): trim
the input; an empty trimmed name or an unknown id leaves the model
untouched, otherwise rename and schedule a save. -/
def renameCommit (now : Nat) (tabId : String) (raw : String) (st : AppState) :
    AppState :=
  let newName := raw.trim
  if newName = "" then st
  else
    match findTab tabId st.tabs with
    | none => st
    | some _ => scheduleSave now { st with tabs := renameFirst tabId newName now st.tabs }

/-- The relative drop position computed by `TABS.onDragOver` (line 1339). -/
inductive DropPos where
  | before
  | after
deriving DecidableEq

/-- `TABS.onDrop` (lines 1348-1367), the model part of the drag-and-drop
reorder: remove the dragged tab and re-insert it before/after the target,
then schedule a save. -/
def onDrop (now : Nat) (dragId targetId : String) (pos : DropPos)
    (st : AppState) : AppState :=
  if dragId = targetId then st
  else
    match findIndexId dragId st.tabs, findIndexId targetId st.tabs with
    | some fromIdx, some targetIdx =>
      let toIdx := targetIdx + (if pos = DropPos.after then 1 else 0)
      let moved := st.tabs.getD fromIdx dummyNote
      let removed := st.tabs.eraseIdx fromIdx
      let toIdx1 := if fromIdx < toIdx then toIdx - 1 else toIdx
      scheduleSave now { st with tabs := removed.insertIdx toIdx1 moved }
    | _, _ => st

/-- The single default note synthesised on first run (lines 1620-1630). -/
def defaultState (now : Nat) : AppState :=
  let defTab : Note :=
    { id := "tab-" ++ toString now
      name := "Note 1"
      content := ""
      createdAt := now
      updatedAt := now }
  { tabs := [defTab], activeTabId := some defTab.id, isDirty := false
    saveTimer := none, editorHTML := "" }

/-- The `activeTabId` validation of lines 1613-1618: adopt the stored id
when it resolves to a note, otherwise fall back to the first note's id. -/
def resolveActive (s : Snapshot) : Option String :=
  match s.activeTabId with
  | some aid =>
    if (findTab aid s.tabs).isSome then some aid
    else some ((s.tabs.headD dummyNote).id)
  | none => some ((s.tabs.headD dummyNote).id)

/-- The model part of `init` loading (lines 1611-1631): adopt a non-empty
stored snapshot with its validated active id, or bootstrap the default
note. -/
def initBase (now : Nat) (stored : Option Snapshot) : AppState :=
  match stored with
  | some s =>
    if 0 < s.tabs.length then
      { tabs := s.tabs, activeTabId := resolveActive s, isDirty := false
        saveTimer := none, editorHTML := "" }
    else defaultState now
  | none => defaultState now

/-- The state after `init` (lines 1609-1635) finishes loading: `initBase`
followed by `EDITOR.setHTML(activeTab ? activeTab.content : '')` (lines
1633-1635), pushing the active note's content into the editor surface. -/
def initFromStored (now : Nat) (stored : Option Snapshot) : AppState :=
  let base : AppState := initBase now stored
  { base with
    editorHTML :=
      match base.activeTabId with
      | some aid =>
        match findTab aid base.tabs with
        | some t => t.content
        | none => ""
      | none => "" }

/-- The tab operations quantified over by claim C1, each carrying its clock
reading. -/
inductive TabOp where
  | create (now : Nat)
  | delete (now : Nat) (tabId : String) (confirmOk : Bool)
  | switch (now : Nat) (tabId : String)
  | rename (now : Nat) (tabId : String) (raw : String)
  | drop (now : Nat) (dragId targetId : String) (pos : DropPos)

/-- Dispatch one UI operation into the model. -/
def applyOp (st : AppState) : TabOp → AppState
  | .create now => createTab now st
  | .delete now tabId ok => deleteTab now tabId ok st
  | .switch now tabId => switchTo now tabId false st
  | .rename now tabId raw => renameCommit now tabId raw st
  | .drop now dragId targetId pos => onDrop now dragId targetId pos st

/-- Run a sequence of UI operations. -/
def runOps (st : AppState) (ops : List TabOp) : AppState := ops.foldl applyOp st

/-- The document-model invariant of claim C1: at least one note exists and
`activeTabId` is the id of some member of the list. -/
def WellFormed (st : AppState) : Prop :=
  0 < st.tabs.length ∧ ∃ t ∈ st.tabs, some t.id = st.activeTabId

instance (st : AppState) : Decidable (WellFormed st) := by
  unfold WellFormed; infer_instance

/-- Whether an operation is a `switchTo` aimed at an id that is absent from
the model (the only operation that can break the invariant). -/
def switchTargetOk (st : AppState) : TabOp → Bool
  | TabOp.switch _ tabId => (findTab tabId st.tabs).isSome
  | _ => true

/-- A sequence of operations in which every `switchTo` targets an id that
exists at the moment of the call. -/
def validOps (st : AppState) : List TabOp → Bool
  | [] => true
  | op :: ops => switchTargetOk st op && validOps (applyOp st op) ops

/-- `escapeHTML` (lines 8-10) acting on one character; the four sequential
global replaces of `&`, `<`, `>`, `"` amount to this character-wise map
(none of the inserted entities contains a character replaced later). -/
def escChar (c : Char) : List Char :=
  if c = '&' then '&' :: 'a' :: 'm' :: 'p' :: [';']
  else if c = '<' then '&' :: 'l' :: 't' :: [';']
  else if c = '>' then '&' :: 'g' :: 't' :: [';']
  else if c = '"' then '&' :: 'q' :: 'u' :: 'o' :: 't' :: [';']
  else [c]

/-- `escapeHTML` on a character list. -/
def escapeChars (cs : List Char) : List Char := (cs.map escChar).flatten

/-- `escapeHTML(s)` (lines 8-10). -/
def escapeHTML (s : String) : String := String.mk (escapeChars s.toList)

/-- The JavaScript regex whitespace class `\s` (`\S` is its negation): ASCII
whitespace plus the Unicode space separators the ECMAScript spec lists. -/
def isJsSpace (c : Char) : Bool :=
  c = ' ' || c = '\t' || c = '\n' || c = '\r' || c = '\x0b' || c = '\x0c' ||
  c = ' ' || c = ' ' || (' ' ≤ c && c ≤ ' ') ||
  c = ' ' || c = ' ' || c = ' ' || c = ' ' ||
  c = '　' || c = '﻿'

/-- The JavaScript regex word class `\w` (`[A-Za-z0-9_]`), which defines the
`\b` boundaries of `PORTAL_TOKEN_RE`. -/
def isWordChar (c : Char) : Bool :=
  ('A' ≤ c && c ≤ 'Z') || ('a' ≤ c && c ≤ 'z') || ('0' ≤ c && c ≤ '9') || c = '_'

/-- The class `[A-Za-z0-9]` of `PORTAL_TOKEN_RE`. -/
def isAlnumChar (c : Char) : Bool :=
  ('A' ≤ c && c ≤ 'Z') || ('a' ≤ c && c ≤ 'z') || ('0' ≤ c && c ≤ '9')

/-- The trailing-punctuation class `[.,;:!?)\]'"]` trimmed off matched URLs
(lines 154 and 199); `39` is the apostrophe. -/
def isTrailPunct (c : Char) : Bool :=
  c = '.' || c = ',' || c = ';' || c = ':' || c = '!' || c = '?' ||
  c = ')' || c = ']' || c.toNat = 39 || c = '"'

/-- `rawToken.replace(/[.,;:!?)\]'"]+$/, '')` (line 199): drop the longest
trailing run of punctuation. -/
def trimTrailingPunct (cs : List Char) : List Char :=
  (cs.reverse.dropWhile isTrailPunct).reverse

/-- The literal characters of the regex piece `http://`. -/
def httpChars : List Char :=
  'h' :: 't' :: 't' :: 'p' :: ':' :: '/' :: ['/']

/-- The literal characters of the regex piece `https://`. -/
def httpsChars : List Char :=
  'h' :: 't' :: 't' :: 'p' :: 's' :: ':' :: '/' :: ['/']

/-- The literal characters of the regex piece `PORTAL-`. -/
def portalChars : List Char :=
  'P' :: 'O' :: 'R' :: 'T' :: 'A' :: 'L' :: ['-']

/-- Anchored match of the first alternative `https?:\/\/\S+` of
`URL_OR_PORTAL_RE` (line 87) at the head of `cs`: the scheme followed by a
non-empty greedy run of non-whitespace.  Returns the token and the rest. -/
def urlToken (cs : List Char) : Option (List Char × List Char) :=
  if httpsChars.isPrefixOf cs then
    let w := (cs.drop 8).takeWhile (fun c => !isJsSpace c)
    if w.isEmpty then none
    else some (cs.take 8 ++ w, (cs.drop 8).dropWhile (fun c => !isJsSpace c))
  else if httpChars.isPrefixOf cs then
    let w := (cs.drop 7).takeWhile (fun c => !isJsSpace c)
    if w.isEmpty then none
    else some (cs.take 7 ++ w, (cs.drop 7).dropWhile (fun c => !isJsSpace c))
  else none

/-- The leading `\b` test of `PORTAL_TOKEN_RE`: satisfied at the start of
the line or after a non-word character. -/
def boundaryBeforeOk : Option Char → Bool
  | none => true
  | some c => !isWordChar c

/-- Anchored match of the second alternative `\bPORTAL-[A-Za-z0-9]+\b` at the
head of `cs`; `prev` is the character immediately before `cs` (`none` at the
start of the line).  The trailing `\b` fails only when the character after
the maximal alphanumeric run is an underscore, in which case no shorter run
can satisfy it either, so the whole alternative fails. -/
def portalToken (prev : Option Char) (cs : List Char) :
    Option (List Char × List Char) :=
  if boundaryBeforeOk prev then
    if portalChars.isPrefixOf cs then
      let run := (cs.drop 7).takeWhile isAlnumChar
      let rest := (cs.drop 7).dropWhile isAlnumChar
      if run.isEmpty then none
      else
        match rest with
        | [] => some (portalChars ++ run, [])
        | c :: _ => if isWordChar c then none else some (portalChars ++ run, rest)
    else none
  else none

/-- One attempt of `URL_OR_PORTAL_RE` at the current scan position: the
alternation tries the URL alternative first, then the PORTAL alternative. -/
def tokenAt (prev : Option Char) (cs : List Char) :
    Option (List Char × List Char) :=
  match urlToken cs with
  | some r => some r
  | none => portalToken prev cs

/-- `LINKS.buildPortalUrl` (lines 184-186) on character lists. -/
def buildPortalUrl (tok : List Char) : List Char :=
  "https://on24-inc.atlassian.net/browse/".toList ++ tok

/-- The test `/^https?:\/\//i.test(rawToken)` of line 198. -/
def startsWithHttpCI (tok : List Char) : Bool :=
  httpChars.isPrefixOf (tok.map Char.toLower) ||
    httpsChars.isPrefixOf (tok.map Char.toLower)

/-- The anchor markup emitted for a URL token (lines 199-202): trailing
punctuation is trimmed from the link target and re-emitted, escaped, after
the anchor. -/
def renderURL (tok : List Char) : List Char :=
  let url := trimTrailingPunct tok
  "<a href=\"".toList ++ escapeChars url ++
    "\" target=\"_blank\" rel=\"noopener noreferrer\">".toList ++
    escapeChars url ++ "</a>".toList ++ escapeChars (tok.drop url.length)

/-- The anchor markup emitted for a PORTAL token (lines 204-205). -/
def renderPortal (tok : List Char) : List Char :=
  "<a href=\"".toList ++ escapeChars (buildPortalUrl tok) ++
    "\" target=\"_blank\" rel=\"noopener noreferrer\">".toList ++
    escapeChars tok ++ "</a>".toList

/-- Dispatch between the two anchor renderings, as line 198 does. -/
def renderToken (tok : List Char) : List Char :=
  if startsWithHttpCI tok then renderURL tok else renderPortal tok

/-- The scan loop of `LINKS._linkifyLine` (lines 188-213): repeatedly look
for the next regex match, escaping unmatched characters and rendering
matched tokens; `prev` is the character before the current position, which
the `\b` of the PORTAL alternative consults.  The loop consumes at least
one character per iteration, so it is expressed with a fuel parameter that
is adequate whenever it is at least the length of the input (see
`linkifyFuel_congr` below); `linkifyLine` supplies exactly that much. -/
def linkifyFuel : Nat → Option Char → List Char → List Char
  | 0, _, _ => []
  | _, _, [] => []
  | fuel + 1, prev, c :: cs =>
    match tokenAt prev (c :: cs) with
    | some (tok, rest) => renderToken tok ++ linkifyFuel fuel (some (tok.getLastD c)) rest
    | none => escChar c ++ linkifyFuel fuel (some c) cs

/-- `LINKS._linkifyLine` on one line. -/
def linkifyLine (line : List Char) : List Char := linkifyFuel line.length none line

/-- The newline normalisation of line 217:
`text.replace(/\r\n/g, '\n').replace(/\r/g, '\n')` — a CRLF pair collapses
to one newline, a stray CR becomes a newline, and everything else passes
through. -/
def normalizeNewlines : List Char → List Char
  | [] => []
  | [c] => if c = '\r' then ['\n'] else [c]
  | c :: c2 :: rest =>
    if c = '\r' then
      if c2 = '\n' then '\n' :: normalizeNewlines rest
      else '\n' :: normalizeNewlines (c2 :: rest)
    else c :: normalizeNewlines (c2 :: rest)

/-- `String.prototype.split('\n')`: always returns at least one (possibly
empty) line. -/
def splitOnNl : List Char → List (List Char)
  | [] => [[]]
  | c :: rest =>
    match splitOnNl rest with
    | [] => [[c]]
    | l :: ls => if c = '\n' then [] :: l :: ls else (c :: l) :: ls

/-- `lines.join('<br>')` (line 218). -/
def joinBr : List (List Char) → List Char
  | [] => []
  | [l] => l
  | l :: ls => l ++ '<' :: 'b' :: 'r' :: ['>'] ++ joinBr ls

/-- `LINKS.linkifyPlainText` (lines 215-219): normalise newlines, split into
lines, linkify each line, and join with `<br>`. -/
def linkifyPlainText (text : String) : String :=
  String.mk (joinBr ((splitOnNl (normalizeNewlines text.toList)).map linkifyLine))

/-- `String.prototype.trim` under the same whitespace class as `\s`. -/
def trimChars (cs : List Char) : List Char :=
  ((cs.dropWhile isJsSpace).reverse.dropWhile isJsSpace).reverse

/-- `styleText.split(';')`. -/
def splitOnSemi : List Char → List (List Char)
  | [] => [[]]
  | c :: rest =>
    match splitOnSemi rest with
    | [] => [[c]]
    | l :: ls => if c = ';' then [] :: l :: ls else (c :: l) :: ls

/-- `kept.join('; ')` (line 692). -/
def joinDecls : List (List Char) → List Char
  | [] => []
  | [d] => d
  | d :: ds => d ++ ';' :: [' '] ++ joinDecls ds

/-- The property name of one declaration (lines 686-688): the text before
the first colon, trimmed and lower-cased; `none` when the declaration has
no colon (such parts are dropped). -/
def declProp (part : List Char) : Option (List Char) :=
  if part.any (fun c => c = ':') then
    some ((trimChars (part.takeWhile (fun c => c ≠ ':'))).map Char.toLower)
  else none

/-- The filter of lines 685-690: keep a declaration iff it has a colon and
its property is none of `font-family`, `font-size`, `font`. -/
def keepDecl (part : List Char) : Bool :=
  match declProp part with
  | none => false
  | some prop =>
    !(prop == "font-family".toList) && !(prop == "font-size".toList) &&
      !(prop == "font".toList)

/-- `EDITOR._stripFontStyleDecls` (lines 678-693). -/
def stripFontStyleDecls (styleText : String) : String :=
  if styleText = "" then ""
  else
    let parts :=
      ((splitOnSemi styleText.toList).map trimChars).filter (fun p => !p.isEmpty)
    String.mk (joinDecls (parts.filter keepDecl))

/-- The style-attribute step of `sanitizePastedHTML` (lines 707-712): strip
font declarations from an existing `style` attribute and drop the attribute
entirely when nothing remains. -/
def sanitizeStyleAttr : Option String → Option String
  | none => none
  | some style =>
    let s := stripFontStyleDecls style
    if s = "" then none else some s

/-- A minimal DOM tree for clipboard HTML.  Element nodes carry the DOM's
canonical tag name (uppercase for HTML elements, as `tagName` returns) and
an ordered attribute list with lower-case attribute names (as the HTML
parser normalises them). -/
inductive DomNode where
  | element (tag : String) (attrs : List (String × String)) (children : List DomNode)
  | text (s : String)

/-- `attr.name.toLowerCase().startsWith('data-')` (line 702); names are
already lower-case in the model. -/
def isDataAttr (nm : String) : Bool :=
  ('d' :: 'a' :: 't' :: 'a' :: ['-']).isPrefixOf nm.toList

/-- Rewrite the `style` attribute in place (lines 707-712), keeping the
position of the attribute when it survives. -/
def transformStyle : List (String × String) → List (String × String)
  | [] => []
  | kv :: rest =>
    if kv.fst = "style" then
      match sanitizeStyleAttr (some kv.snd) with
      | some v => ("style", v) :: transformStyle rest
      | none => transformStyle rest
    else kv :: transformStyle rest

/-- The per-element attribute cleanup of `sanitizePastedHTML` (lines
699-719): drop `data-*` attributes, sanitise the inline style, and strip
the legacy presentational attributes of `<font>` elements. -/
def sanitizeAttrsFor (tag : String) (attrs : List (String × String)) :
    List (String × String) :=
  let a1 := attrs.filter (fun kv => !isDataAttr kv.fst)
  let a2 := transformStyle a1
  if tag = "FONT" then
    a2.filter (fun kv => kv.fst != "face" && kv.fst != "size" && kv.fst != "color")
  else a2

mutual

/-- Apply the attribute cleanup to one node and all its descendants (the
`querySelectorAll('*').forEach` of line 699 touches every element). -/
def sanitizeNode : DomNode → DomNode
  | .text s => .text s
  | .element tag attrs children =>
    .element tag (sanitizeAttrsFor tag attrs) (sanitizeChildren children)

/-- Apply the attribute cleanup to a node list. -/
def sanitizeChildren : List DomNode → List DomNode
  | [] => []
  | n :: ns => sanitizeNode n :: sanitizeChildren ns

end

mutual

/-- The number of nodes of a tree, a strict upper bound on the number of
iterations of the unwrap loop below. -/
def domSize : DomNode → Nat
  | .text _ => 1
  | .element _ _ children => 1 + domSizeList children

/-- The number of nodes of a forest. -/
def domSizeList : List DomNode → Nat
  | [] => 0
  | n :: ns => domSize n + domSizeList ns

end

/-- The unwrap loop of lines 724-734 with a fuel parameter: while the
fragment consists of exactly one element node with tag `SPAN`, replace it
by its children.  Each iteration strictly shrinks the forest, so the node
count supplied by `unwrapSpans` is always sufficient fuel. -/
def unwrapSpansFuel : Nat → List DomNode → List DomNode
  | 0, ns => ns
  | fuel + 1, ns =>
    match ns with
    | [DomNode.element "SPAN" _ children] => unwrapSpansFuel fuel children
    | _ => ns

/-- The unwrap loop of lines 724-734. -/
def unwrapSpans (ns : List DomNode) : List DomNode :=
  unwrapSpansFuel (domSizeList ns) ns

/-- `EDITOR.sanitizePastedHTML` (lines 695-737) on the parsed fragment:
clean every element's attributes, then unwrap redundant top-level spans. -/
def sanitizePastedHTML (roots : List DomNode) : List DomNode :=
  unwrapSpans (sanitizeChildren roots)

/-- Timer semantics of the debounce machinery (lines 69-76): given the
deadline of the currently armed timer and the ordered times of the remaining
`scheduleSave` calls, return the times at which the timer callback (which
runs `flush`) actually fires.  A deadline reached no later than the next
call fires first; otherwise `clearTimeout` cancels it; each call arms a
fresh deadline 600 ms out, and a deadline still armed after the last call
eventually fires. -/
def fireTimes (pending : Option Nat) : List Nat → List Nat
  | [] =>
    match pending with
    | some d => [d]
    | none => []
  | t :: ts =>
    match pending with
    | some d =>
      if d ≤ t then d :: fireTimes (some (t + 600)) ts
      else fireTimes (some (t + 600)) ts
    | none => fireTimes (some (t + 600)) ts

/-! ### Helper lemmas about the list operations of the tab model -/

theorem captureContent_map_id (aid : Option String) (html : String) (now : Nat) :
    ∀ ts : List Note,
      (captureContent aid html now ts).map Note.id = ts.map Note.id := by
  intro ts
  induction ts with
  | nil => rfl
  | cons t ts ih =>
    by_cases h : some t.id = aid <;> simp [captureContent, h, ih]

theorem length_captureContent (aid : Option String) (html : String) (now : Nat)
    (ts : List Note) : (captureContent aid html now ts).length = ts.length := by
  have h := captureContent_map_id aid html now ts
  have h2 := congrArg List.length h
  simpa using h2

theorem renameFirst_map_id (tabId newName : String) (now : Nat) :
    ∀ ts : List Note, (renameFirst tabId newName now ts).map Note.id = ts.map Note.id := by
  intro ts
  induction ts with
  | nil => rfl
  | cons t ts ih =>
    by_cases h : t.id = tabId <;> simp [renameFirst, h, ih]

theorem findTab_eq_none_iff (tabId : String) :
    ∀ ts : List Note, findTab tabId ts = none ↔ ∀ t ∈ ts, t.id ≠ tabId := by
  intro ts
  induction ts with
  | nil => simp [findTab]
  | cons t ts ih =>
    by_cases h : t.id = tabId <;> simp [findTab, h, ih]

theorem findTab_isSome_iff (tabId : String) :
    ∀ ts : List Note, (findTab tabId ts).isSome = true ↔ ∃ t ∈ ts, t.id = tabId := by
  intro ts
  induction ts with
  | nil => simp [findTab]
  | cons t ts ih =>
    by_cases h : t.id = tabId <;> simp [findTab, h, ih]

theorem findTab_captureContent_none (aid : Option String) (html : String)
    (now : Nat) (tabId : String) (ts : List Note)
    (h : findTab tabId ts = none) :
    findTab tabId (captureContent aid html now ts) = none := by
  rw [findTab_eq_none_iff] at h ⊢
  intro t ht
  have hids := captureContent_map_id aid html now ts
  have : t.id ∈ (captureContent aid html now ts).map Note.id :=
    List.mem_map_of_mem Note.id ht
  rw [hids] at this
  obtain ⟨u, hu, hid⟩ := List.mem_map.mp this
  exact hid ▸ h u hu

theorem findIndexId_append (tabId : String) :
    ∀ (A rest : List Note), (∀ u ∈ A, u.id ≠ tabId) →
      findIndexId tabId (A ++ rest) = (findIndexId tabId rest).map (· + A.length) := by
  intro A
  induction A with
  | nil =>
    intro rest _
    simp
  | cons a A ih =>
    intro rest hA
    have ha : a.id ≠ tabId := hA a (by simp)
    have h2 : ∀ u ∈ A, u.id ≠ tabId := fun u hu => hA u (by simp [hu])
    show findIndexId tabId (a :: (A ++ rest)) = _
    simp only [findIndexId]
    rw [if_neg ha, ih rest h2]
    cases findIndexId tabId rest with
    | none => rfl
    | some j =>
      show some (j + A.length + 1) = some (j + (a :: A).length)
      simp only [List.length_cons, Option.some.injEq]
      omega

theorem findIndexId_cons_self (t : Note) (ts : List Note) :
    findIndexId t.id (t :: ts) = some 0 := by
  simp [findIndexId]

theorem findIndexId_some (tabId : String) :
    ∀ (ts : List Note) (idx : Nat), findIndexId tabId ts = some idx →
      idx < ts.length ∧ (ts.getD idx dummyNote).id = tabId := by
  intro ts
  induction ts with
  | nil => intro idx h; simp [findIndexId] at h
  | cons t ts ih =>
    intro idx h
    by_cases ht : t.id = tabId
    · simp only [findIndexId, ht, if_true, Option.some.injEq] at h
      subst h
      exact ⟨by simp, ht⟩
    · simp only [findIndexId, ht, if_false] at h
      cases hrec : findIndexId tabId ts with
      | none => rw [hrec] at h; simp at h
      | some j =>
        rw [hrec] at h
        have h3 : j + 1 = idx := Option.some.inj h
        obtain ⟨hlt, hid⟩ := ih j hrec
        subst h3
        refine ⟨by simp only [List.length_cons]; omega, ?_⟩
        show ((t :: ts).getD (j + 1) dummyNote).id = tabId
        exact hid

theorem eraseIdx_append_length :
    ∀ (A : List Note) (t : Note) (C : List Note),
      (A ++ t :: C).eraseIdx A.length = A ++ C := by
  intro A
  induction A with
  | nil => intro t C; rfl
  | cons a A ih => intro t C; simp [List.eraseIdx, ih]

theorem insertIdx_append_length :
    ∀ (A B : List Note) (x : Note), (A ++ B).insertIdx A.length x = A ++ x :: B := by
  intro A
  induction A with
  | nil => intro B x; rfl
  | cons a A ih =>
    intro B x
    simp [List.insertIdx_succ_cons, ih]

theorem getD_append_length :
    ∀ (A : List Note) (t : Note) (C : List Note),
      (A ++ t :: C).getD A.length dummyNote = t := by
  intro A
  induction A with
  | nil => intro t C; rfl
  | cons a A ih => intro t C; simpa using ih t C

theorem getD_last :
    ∀ (A : List Note) (h : A ≠ []),
      A.getD (A.length - 1) dummyNote = A.getLast h := by
  intro A
  induction A with
  | nil => intro h; exact absurd rfl h
  | cons a A ih =>
    intro h
    cases A with
    | nil => rfl
    | cons b B =>
      have hne : (b :: B) ≠ [] := by simp
      have h1 : (a :: b :: B).getD ((a :: b :: B).length - 1) dummyNote
          = (b :: B).getD ((b :: B).length - 1) dummyNote := by
        simp only [List.length_cons, Nat.add_sub_cancel]
        rfl
      rw [h1, ih hne, List.getLast_cons hne]

theorem getD_mem :
    ∀ (ts : List Note) (n : Nat), n < ts.length → ts.getD n dummyNote ∈ ts := by
  intro ts
  induction ts with
  | nil => intro n h; simp at h
  | cons t ts ih =>
    intro n h
    cases n with
    | zero => simp [List.getD]
    | succ m =>
      have : m < ts.length := by simp only [List.length_cons] at h; omega
      simpa using Or.inr (ih m this)

theorem length_eraseIdx_of_lt :
    ∀ (ts : List Note) (idx : Nat), idx < ts.length →
      (ts.eraseIdx idx).length = ts.length - 1 := by
  intro ts
  induction ts with
  | nil => intro idx h; simp at h
  | cons t ts ih =>
    intro idx h
    cases idx with
    | zero => simp [List.eraseIdx]
    | succ m =>
      have hm : m < ts.length := by simp only [List.length_cons] at h; omega
      have := ih m hm
      simp only [List.eraseIdx, List.length_cons, this]
      omega

theorem mem_eraseIdx_of_ne_id (tabId : String) :
    ∀ (ts : List Note) (idx : Nat) (t : Note),
      findIndexId tabId ts = some idx → t ∈ ts → t.id ≠ tabId →
      t ∈ ts.eraseIdx idx := by
  intro ts
  induction ts with
  | nil => intro idx t h; simp [findIndexId] at h
  | cons u ts ih =>
    intro idx t hfind hmem hne
    by_cases hu : u.id = tabId
    · simp only [findIndexId, hu, if_true] at hfind
      cases hfind
      rcases List.mem_cons.mp hmem with h | h
      · exact absurd (h ▸ hu) hne
      · simpa [List.eraseIdx] using h
    · simp only [findIndexId, hu, if_false] at hfind
      cases hrec : findIndexId tabId ts with
      | none => rw [hrec] at hfind; simp at hfind
      | some j =>
        rw [hrec] at hfind
        have h3 : j + 1 = idx := Option.some.inj hfind
        subst h3
        rcases List.mem_cons.mp hmem with h | h
        · simp [List.eraseIdx, h]
        · simpa [List.eraseIdx] using Or.inr (ih j t hrec h hne)

theorem mem_eraseIdx_or_getD :
    ∀ (ts : List Note) (idx : Nat) (t : Note), t ∈ ts →
      t ∈ ts.eraseIdx idx ∨ t = ts.getD idx dummyNote := by
  intro ts
  induction ts with
  | nil => intro idx t h; simp at h
  | cons u ts ih =>
    intro idx t hmem
    cases idx with
    | zero =>
      rcases List.mem_cons.mp hmem with h | h
      · exact Or.inr h
      · exact Or.inl (by simpa [List.eraseIdx] using h)
    | succ m =>
      rcases List.mem_cons.mp hmem with h | h
      · exact Or.inl (by simp [List.eraseIdx, h])
      · rcases ih m t h with h2 | h2
        · exact Or.inl (by simpa [List.eraseIdx] using Or.inr h2)
        · exact Or.inr h2

theorem mem_insertIdx_of_mem :
    ∀ (l : List Note) (n : Nat) (x t : Note), t ∈ l → t ∈ l.insertIdx n x := by
  intro l
  induction l with
  | nil => intro n x t h; simp at h
  | cons a l ih =>
    intro n x t h
    cases n with
    | zero => simpa [List.insertIdx_zero] using Or.inr h
    | succ m =>
      rcases List.mem_cons.mp h with h2 | h2
      · simp [List.insertIdx_succ_cons, h2]
      · simpa [List.insertIdx_succ_cons] using Or.inr (ih m x t h2)

theorem switchTo_skip_tabs (now : Nat) (tabId : String) (st : AppState) :
    (switchTo now tabId true st).tabs = st.tabs := by
  unfold switchTo
  by_cases h : some tabId = st.activeTabId
  · rw [if_pos h]
  · rw [if_neg h]
    rfl

theorem switchTo_no_skip_tabs (now : Nat) (tabId : String) (st : AppState) :
    (switchTo now tabId false st).tabs = st.tabs ∨
      (switchTo now tabId false st).tabs =
        captureContent st.activeTabId (getHTML st) now st.tabs := by
  unfold switchTo
  by_cases h : some tabId = st.activeTabId
  · rw [if_pos h]; exact Or.inl rfl
  · rw [if_neg h]; exact Or.inr rfl

theorem self_mem_insertIdx :
    ∀ (l : List Note) (n : Nat), n ≤ l.length → ∀ x : Note, x ∈ l.insertIdx n x := by
  intro l
  induction l with
  | nil =>
    intro n hn x
    have h0 : n = 0 := by simp only [List.length_nil] at hn; omega
    subst h0
    simp [List.insertIdx_zero]
  | cons a l ih =>
    intro n hn x
    cases n with
    | zero => simp [List.insertIdx_zero]
    | succ m =>
      have : m ≤ l.length := by simp only [List.length_cons] at hn; omega
      simpa [List.insertIdx_succ_cons] using Or.inr (ih m this x)

theorem exists_id_of_map_eq (ts ts' : List Note) (aid : Option String)
    (h : ts'.map Note.id = ts.map Note.id) :
    (∃ t ∈ ts, some t.id = aid) → ∃ t ∈ ts', some t.id = aid := by
  rintro ⟨t, ht, hid⟩
  have hmem : t.id ∈ ts'.map Note.id := by
    rw [h]; exact List.mem_map_of_mem _ ht
  obtain ⟨u, hu, hid2⟩ := List.mem_map.mp hmem
  exact ⟨u, hu, by rw [hid2]; exact hid⟩

theorem switchTo_active (now : Nat) (tabId : String) (skip : Bool) (st : AppState) :
    (switchTo now tabId skip st).activeTabId = some tabId := by
  unfold switchTo
  by_cases h : some tabId = st.activeTabId
  · rw [if_pos h]; exact h.symm
  · rw [if_neg h]; rfl

theorem createTab_tabs (now : Nat) (st : AppState) :
    (createTab now st).tabs =
      captureContent st.activeTabId (getHTML st) now st.tabs ++
        [{ id := "tab-" ++ toString now
           name := "Note " ++ toString (st.tabs.length + 1)
           content := ""
           createdAt := now
           updatedAt := now }] := by
  show (switchTo now _ true _).tabs = _
  rw [switchTo_skip_tabs]
  simp only [length_captureContent]

theorem createTab_active (now : Nat) (st : AppState) :
    (createTab now st).activeTabId = some ("tab-" ++ toString now) := by
  show (switchTo now _ true _).activeTabId = _
  rw [switchTo_active]

theorem length_switchTo (now : Nat) (tabId : String) (skip : Bool) (st : AppState) :
    (switchTo now tabId skip st).tabs.length = st.tabs.length := by
  cases skip with
  | true => rw [switchTo_skip_tabs]
  | false =>
    rcases switchTo_no_skip_tabs now tabId st with h | h
    · rw [h]
    · rw [h, length_captureContent]

theorem wellFormed_scheduleSave (now : Nat) (st : AppState) :
    WellFormed (scheduleSave now st) ↔ WellFormed st := Iff.rfl

theorem wf_createTab (now : Nat) (st : AppState) : WellFormed (createTab now st) := by
  refine ⟨?_, ?_⟩
  · rw [createTab_tabs]
    simp
  · refine ⟨{ id := "tab-" ++ toString now
              name := "Note " ++ toString (st.tabs.length + 1)
              content := ""
              createdAt := now
              updatedAt := now }, ?_, ?_⟩
    · rw [createTab_tabs]
      simp
    · rw [createTab_active]

theorem wf_switchTo (now : Nat) (tabId : String) (skip : Bool) (st : AppState)
    (hlen : 0 < st.tabs.length) (h : ∃ t ∈ st.tabs, t.id = tabId) :
    WellFormed (switchTo now tabId skip st) := by
  refine ⟨by rw [length_switchTo]; exact hlen, ?_⟩
  rw [switchTo_active]
  have h2 : ∃ t ∈ st.tabs, some t.id = some tabId := by
    obtain ⟨t, ht, hid⟩ := h
    exact ⟨t, ht, congrArg some hid⟩
  cases skip with
  | true =>
    rw [switchTo_skip_tabs]
    exact h2
  | false =>
    rcases switchTo_no_skip_tabs now tabId st with heq | heq
    · rw [heq]; exact h2
    · rw [heq]
      exact exists_id_of_map_eq _ _ _ (captureContent_map_id _ _ _ _) h2

theorem deleteTab_guard_len (now : Nat) (tabId : String) (ok : Bool)
    (st : AppState) (h : st.tabs.length ≤ 1) : deleteTab now tabId ok st = st := by
  unfold deleteTab
  rw [if_pos h]

theorem deleteTab_guard_missing (now : Nat) (tabId : String) (ok : Bool)
    (st : AppState) (h : findIndexId tabId st.tabs = none) :
    deleteTab now tabId ok st = st := by
  unfold deleteTab
  by_cases hlen : st.tabs.length ≤ 1
  · rw [if_pos hlen]
  · rw [if_neg hlen]
    simp only [h]

theorem deleteTab_not_confirmed (now : Nat) (tabId : String) (st : AppState) :
    deleteTab now tabId false st = st := by
  unfold deleteTab
  by_cases hlen : st.tabs.length ≤ 1
  · rw [if_pos hlen]
  · rw [if_neg hlen]
    cases hfind : findIndexId tabId st.tabs with
    | none => rfl
    | some idx => simp

theorem deleteTab_active_eq (now : Nat) (tabId : String) (st : AppState)
    (idx : Nat) (hlen : ¬ st.tabs.length ≤ 1)
    (hfind : findIndexId tabId st.tabs = some idx)
    (hact : st.activeTabId = some tabId) :
    deleteTab now tabId true st =
      { st with
        tabs := st.tabs.eraseIdx idx
        activeTabId := some ((st.tabs.eraseIdx idx).getD
          (min idx ((st.tabs.eraseIdx idx).length - 1)) dummyNote).id
        editorHTML := ((st.tabs.eraseIdx idx).getD
          (min idx ((st.tabs.eraseIdx idx).length - 1)) dummyNote).content
        isDirty := true
        saveTimer := some (now + 600) } := by
  unfold deleteTab
  rw [if_neg hlen]
  simp only [hfind]
  simp [hact, scheduleSave]

theorem deleteTab_other_eq (now : Nat) (tabId : String) (st : AppState)
    (idx : Nat) (hlen : ¬ st.tabs.length ≤ 1)
    (hfind : findIndexId tabId st.tabs = some idx)
    (hact : ¬ st.activeTabId = some tabId) :
    deleteTab now tabId true st =
      { st with
        tabs := st.tabs.eraseIdx idx
        isDirty := true
        saveTimer := some (now + 600) } := by
  unfold deleteTab
  rw [if_neg hlen]
  simp only [hfind]
  simp [hact, scheduleSave]

theorem wf_deleteTab (now : Nat) (tabId : String) (ok : Bool) (st : AppState)
    (hwf : WellFormed st) : WellFormed (deleteTab now tabId ok st) := by
  by_cases hlen : st.tabs.length ≤ 1
  · rw [deleteTab_guard_len now tabId ok st hlen]; exact hwf
  cases hfind : findIndexId tabId st.tabs with
  | none => rw [deleteTab_guard_missing now tabId ok st hfind]; exact hwf
  | some idx =>
    cases ok with
    | false => rw [deleteTab_not_confirmed]; exact hwf
    | true =>
      obtain ⟨hidx, hid⟩ := findIndexId_some tabId st.tabs idx hfind
      have hlen1 : (st.tabs.eraseIdx idx).length = st.tabs.length - 1 :=
        length_eraseIdx_of_lt st.tabs idx hidx
      by_cases hact : st.activeTabId = some tabId
      · rw [deleteTab_active_eq now tabId st idx hlen hfind hact]
        refine ⟨by show 0 < (st.tabs.eraseIdx idx).length; omega, ?_⟩
        refine ⟨(st.tabs.eraseIdx idx).getD
          (min idx ((st.tabs.eraseIdx idx).length - 1)) dummyNote, ?_, rfl⟩
        show (st.tabs.eraseIdx idx).getD
          (min idx ((st.tabs.eraseIdx idx).length - 1)) dummyNote ∈ st.tabs.eraseIdx idx
        refine getD_mem _ _ ?_
        have h1 : min idx ((st.tabs.eraseIdx idx).length - 1) ≤
            (st.tabs.eraseIdx idx).length - 1 := Nat.min_le_right _ _
        omega
      · rw [deleteTab_other_eq now tabId st idx hlen hfind hact]
        obtain ⟨hpos, t, ht, htid⟩ := hwf
        refine ⟨by show 0 < (st.tabs.eraseIdx idx).length; omega, t, ?_, htid⟩
        refine mem_eraseIdx_of_ne_id tabId st.tabs idx t hfind ht ?_
        intro hcontra
        exact hact (by rw [← htid, hcontra])

theorem wf_renameCommit (now : Nat) (tabId raw : String) (st : AppState)
    (hwf : WellFormed st) : WellFormed (renameCommit now tabId raw st) := by
  unfold renameCommit
  by_cases hname : raw.trim = ""
  · rw [if_pos hname]; exact hwf
  rw [if_neg hname]
  cases hfind : findTab tabId st.tabs with
  | none => exact hwf
  | some t =>
    show WellFormed (scheduleSave now _)
    rw [wellFormed_scheduleSave]
    obtain ⟨hpos, hex⟩ := hwf
    have hl : (renameFirst tabId raw.trim now st.tabs).length = st.tabs.length := by
      have h2 := congrArg List.length (renameFirst_map_id tabId raw.trim now st.tabs)
      simpa using h2
    refine ⟨?_, ?_⟩
    · show 0 < (renameFirst tabId raw.trim now st.tabs).length
      omega
    · exact exists_id_of_map_eq _ _ _ (renameFirst_map_id _ _ _ _) hex

theorem onDrop_tabs_length (now : Nat) (dragId targetId : String) (pos : DropPos)
    (st : AppState) :
    (onDrop now dragId targetId pos st).tabs.length = st.tabs.length := by
  unfold onDrop
  by_cases hids : dragId = targetId
  · rw [if_pos hids]
  rw [if_neg hids]
  cases hfrom : findIndexId dragId st.tabs with
  | none => rfl
  | some fromIdx =>
    cases htarget : findIndexId targetId st.tabs with
    | none => rfl
    | some targetIdx =>
      obtain ⟨hf, hfid⟩ := findIndexId_some dragId st.tabs fromIdx hfrom
      obtain ⟨ht, htid⟩ := findIndexId_some targetId st.tabs targetIdx htarget
      have hne : fromIdx ≠ targetIdx := by
        intro hcontra
        exact hids (by rw [← hfid, hcontra, htid])
      have hlen1 : (st.tabs.eraseIdx fromIdx).length = st.tabs.length - 1 :=
        length_eraseIdx_of_lt st.tabs fromIdx hf
      show ((st.tabs.eraseIdx fromIdx).insertIdx _ _).length = _
      rw [List.length_insertIdx _ _ ?bound, hlen1]
      · omega
      case bound =>
        rw [hlen1]
        by_cases hpos : pos = DropPos.after
        · rw [if_pos hpos]
          by_cases hlt : fromIdx < targetIdx + 1
          · rw [if_pos hlt]; omega
          · rw [if_neg hlt]; omega
        · rw [if_neg hpos]
          by_cases hlt : fromIdx < targetIdx + 0
          · rw [if_pos hlt]; omega
          · rw [if_neg hlt]; omega

theorem wf_onDrop (now : Nat) (dragId targetId : String) (pos : DropPos)
    (st : AppState) (hwf : WellFormed st) :
    WellFormed (onDrop now dragId targetId pos st) := by
  obtain ⟨hpos, t, ht, htid⟩ := hwf
  refine ⟨by rw [onDrop_tabs_length]; exact hpos, ?_⟩
  unfold onDrop
  by_cases hids : dragId = targetId
  · rw [if_pos hids]; exact ⟨t, ht, htid⟩
  rw [if_neg hids]
  cases hfrom : findIndexId dragId st.tabs with
  | none => exact ⟨t, ht, htid⟩
  | some fromIdx =>
    cases htarget : findIndexId targetId st.tabs with
    | none => exact ⟨t, ht, htid⟩
    | some targetIdx =>
      obtain ⟨hf, hfid⟩ := findIndexId_some dragId st.tabs fromIdx hfrom
      obtain ⟨htlt, htid2⟩ := findIndexId_some targetId st.tabs targetIdx htarget
      have hne : fromIdx ≠ targetIdx := by
        intro hcontra
        exact hids (by rw [← hfid, hcontra, htid2])
      have hlen1 : (st.tabs.eraseIdx fromIdx).length = st.tabs.length - 1 :=
        length_eraseIdx_of_lt st.tabs fromIdx hf
      have hbound :
          (if fromIdx < targetIdx + (if pos = DropPos.after then 1 else 0) then
            targetIdx + (if pos = DropPos.after then 1 else 0) - 1
          else targetIdx + (if pos = DropPos.after then 1 else 0)) ≤
            (st.tabs.eraseIdx fromIdx).length := by
        rw [hlen1]
        by_cases hpos2 : pos = DropPos.after
        · rw [if_pos hpos2]
          by_cases hlt : fromIdx < targetIdx + 1
          · rw [if_pos hlt]; omega
          · rw [if_neg hlt]; omega
        · rw [if_neg hpos2]
          by_cases hlt : fromIdx < targetIdx + 0
          · rw [if_pos hlt]; omega
          · rw [if_neg hlt]; omega
      show ∃ u ∈ (st.tabs.eraseIdx fromIdx).insertIdx _ (st.tabs.getD fromIdx dummyNote),
        some u.id = st.activeTabId
      rcases mem_eraseIdx_or_getD st.tabs fromIdx t ht with hmem | heq
      · exact ⟨t, mem_insertIdx_of_mem _ _ _ _ hmem, htid⟩
      · refine ⟨st.tabs.getD fromIdx dummyNote, ?_, by rw [← heq]; exact htid⟩
        exact self_mem_insertIdx _ _ hbound _

theorem wf_applyOp (st : AppState) (op : TabOp) (hwf : WellFormed st)
    (hok : switchTargetOk st op = true) : WellFormed (applyOp st op) := by
  cases op with
  | create now => exact wf_createTab now st
  | delete now tabId ok => exact wf_deleteTab now tabId ok st hwf
  | switch now tabId =>
    have h : ∃ t ∈ st.tabs, t.id = tabId := by
      rw [← findTab_isSome_iff]
      exact hok
    exact wf_switchTo now tabId false st hwf.1 h
  | rename now tabId raw => exact wf_renameCommit now tabId raw st hwf
  | drop now dragId targetId pos => exact wf_onDrop now dragId targetId pos st hwf

theorem length_pos_applyOp (st : AppState) (op : TabOp)
    (h : 0 < st.tabs.length) : 0 < (applyOp st op).tabs.length := by
  cases op with
  | create now =>
    show 0 < (createTab now st).tabs.length
    rw [createTab_tabs]
    simp
  | delete now tabId ok =>
    show 0 < (deleteTab now tabId ok st).tabs.length
    by_cases hlen : st.tabs.length ≤ 1
    · rw [deleteTab_guard_len now tabId ok st hlen]; exact h
    cases hfind : findIndexId tabId st.tabs with
    | none => rw [deleteTab_guard_missing now tabId ok st hfind]; exact h
    | some idx =>
      cases ok with
      | false => rw [deleteTab_not_confirmed]; exact h
      | true =>
        obtain ⟨hidx, _⟩ := findIndexId_some tabId st.tabs idx hfind
        have hlen1 : (st.tabs.eraseIdx idx).length = st.tabs.length - 1 :=
          length_eraseIdx_of_lt st.tabs idx hidx
        by_cases hact : st.activeTabId = some tabId
        · rw [deleteTab_active_eq now tabId st idx hlen hfind hact]
          show 0 < (st.tabs.eraseIdx idx).length
          omega
        · rw [deleteTab_other_eq now tabId st idx hlen hfind hact]
          show 0 < (st.tabs.eraseIdx idx).length
          omega
  | switch now tabId =>
    show 0 < (switchTo now tabId false st).tabs.length
    rw [length_switchTo]
    exact h
  | rename now tabId raw =>
    show 0 < (renameCommit now tabId raw st).tabs.length
    unfold renameCommit
    by_cases hname : raw.trim = ""
    · rw [if_pos hname]; exact h
    rw [if_neg hname]
    cases hfind : findTab tabId st.tabs with
    | none => exact h
    | some t =>
      show 0 < (renameFirst tabId raw.trim now st.tabs).length
      have := congrArg List.length (renameFirst_map_id tabId raw.trim now st.tabs)
      simp only [List.length_map] at this
      omega
  | drop now dragId targetId pos =>
    show 0 < (onDrop now dragId targetId pos st).tabs.length
    rw [onDrop_tabs_length]
    exact h

theorem wf_initBase (now : Nat) (stored : Option Snapshot) :
    WellFormed (initBase now stored) := by
  have hdef : WellFormed (defaultState now) := by
    refine ⟨by simp [defaultState], ?_⟩
    exact ⟨{ id := "tab-" ++ toString now, name := "Note 1", content := ""
             createdAt := now, updatedAt := now }, by simp [defaultState], rfl⟩
  unfold initBase
  cases stored with
  | none => exact hdef
  | some s =>
    show WellFormed (if 0 < s.tabs.length then
      { tabs := s.tabs, activeTabId := resolveActive s, isDirty := false
        saveTimer := none, editorHTML := "" } else defaultState now)
    by_cases hs : 0 < s.tabs.length
    · rw [if_pos hs]
      obtain ⟨t0, ts0, hts⟩ : ∃ t0 ts0, s.tabs = t0 :: ts0 := by
        cases hEq : s.tabs with
        | nil => rw [hEq] at hs; simp at hs
        | cons t0 ts0 => exact ⟨t0, ts0, rfl⟩
      refine ⟨hs, ?_⟩
      show ∃ t ∈ s.tabs, some t.id = resolveActive s
      unfold resolveActive
      cases hact : s.activeTabId with
      | none =>
        refine ⟨s.tabs.headD dummyNote, ?_, rfl⟩
        rw [hts]
        exact List.mem_cons_self t0 ts0
      | some aid =>
        show ∃ t ∈ s.tabs, some t.id =
          (if (findTab aid s.tabs).isSome = true then some aid
           else some (s.tabs.headD dummyNote).id)
        by_cases hfound : (findTab aid s.tabs).isSome
        · rw [if_pos hfound]
          obtain ⟨t, ht, hid⟩ := (findTab_isSome_iff aid s.tabs).mp hfound
          exact ⟨t, ht, congrArg some hid⟩
        · rw [if_neg hfound]
          refine ⟨s.tabs.headD dummyNote, ?_, rfl⟩
          rw [hts]
          exact List.mem_cons_self t0 ts0
    · rw [if_neg hs]
      exact hdef

theorem wf_initFromStored (now : Nat) (stored : Option Snapshot) :
    WellFormed (initFromStored now stored) := by
  have h := wf_initBase now stored
  exact ⟨h.1, h.2⟩

theorem wf_runOps (st : AppState) (ops : List TabOp) (hwf : WellFormed st)
    (hvalid : validOps st ops = true) : WellFormed (runOps st ops) := by
  induction ops generalizing st with
  | nil => exact hwf
  | cons op ops ih =>
    simp only [validOps, Bool.and_eq_true] at hvalid
    exact ih (applyOp st op) (wf_applyOp st op hwf hvalid.1) hvalid.2

theorem length_pos_runOps (st : AppState) (ops : List TabOp)
    (h : 0 < st.tabs.length) : 0 < (runOps st ops).tabs.length := by
  induction ops generalizing st with
  | nil => exact h
  | cons op ops ih => exact ih (applyOp st op) (length_pos_applyOp st op h)

/-! ### Claim C1 — the document-model invariant -/

/-- C1, counterexample: the claim fails as stated, because `switchTo`
performs no existence check on its target.  After first-run initialisation
(one note with id `tab-0`), the single operation `switchTo("ghost")`
produces a state whose `activeTabId` is the dangling id `"ghost"`, so
`activeTabId` no longer equals the id of any member of `notes`. -/
theorem claim_C1_counterexample :
    WellFormed (initFromStored 0 none) ∧
    ¬ WellFormed (runOps (initFromStored 0 none) [TabOp.switch 1 "ghost"]) ∧
    (runOps (initFromStored 0 none) [TabOp.switch 1 "ghost"]).activeTabId =
      some "ghost" := by
  decide

/-- C1, amended: after initialization, `notes.length ≥ 1` holds for every
sequence of tab operations; and `activeTabId` always equals the id of some
member of `notes` provided every `switchTo` in the sequence targets an id
present in the model at the moment of the call (a `switchTo` aimed at a
non-existent id installs a dangling `activeTabId`). -/
theorem claim_C1 :
    (∀ (now : Nat) (stored : Option Snapshot),
      WellFormed (initFromStored now stored)) ∧
    (∀ (st : AppState) (ops : List TabOp),
      0 < st.tabs.length → 0 < (runOps st ops).tabs.length) ∧
    (∀ (st : AppState) (ops : List TabOp),
      WellFormed st → validOps st ops = true → WellFormed (runOps st ops)) :=
  ⟨wf_initFromStored, length_pos_runOps, wf_runOps⟩

/-- C1, witness: a concrete five-operation run (create, switch to an
existing id, rename, reorder, delete) starting from the freshly initialised
model stays well-formed. -/
theorem claim_C1_witness :
    WellFormed (runOps (initFromStored 0 none)
      [TabOp.create 5, TabOp.switch 6 "tab-0", TabOp.rename 7 "tab-0" " A ",
       TabOp.drop 8 "tab-0" "tab-5" DropPos.after, TabOp.delete 9 "tab-5" true]) :=
  claim_C1.2.2 (initFromStored 0 none)
    [TabOp.create 5, TabOp.switch 6 "tab-0", TabOp.rename 7 "tab-0" " A ",
     TabOp.drop 8 "tab-0" "tab-5" DropPos.after, TabOp.delete 9 "tab-5" true]
    (by decide) (by decide)

/-! ### Claim C3 — `createTab` -/

theorem findTab_append (tabId : String) :
    ∀ (A B : List Note), (∀ u ∈ A, u.id ≠ tabId) →
      findTab tabId (A ++ B) = findTab tabId B := by
  intro A
  induction A with
  | nil => intro B _; rfl
  | cons a A ih =>
    intro B hA
    have ha : a.id ≠ tabId := hA a (by simp)
    have h2 : ∀ u ∈ A, u.id ≠ tabId := fun u hu => hA u (by simp [hu])
    show findTab tabId (a :: (A ++ B)) = _
    simp only [findTab]
    rw [if_neg ha, ih B h2]

theorem findTab_cons_self (t : Note) (ts : List Note) :
    findTab t.id (t :: ts) = some t := by
  simp [findTab]

theorem switchTo_editor (now : Nat) (tabId : String) (skip : Bool)
    (st : AppState) (hne : ¬ some tabId = st.activeTabId) :
    (switchTo now tabId skip st).editorHTML =
      (match findTab tabId
          (if skip then st.tabs
           else captureContent st.activeTabId (getHTML st) now st.tabs) with
        | some t => t.content
        | none => "") := by
  unfold switchTo
  rw [if_neg hne]
  cases skip <;> rfl

/-- C3, counterexample: two `createTab` calls in the same millisecond
(equal `Date.now()` readings) generate the same id `tab-5`, so the new
note's id is not unique among all notes. -/
theorem claim_C3_counterexample :
    ¬ ((createTab 5 (createTab 5 (initFromStored 0 none))).tabs.map Note.id).Nodup := by
  decide

/-- C3, amended: on a well-formed model, `createTab()` appends exactly one
new note with id `"tab-" + now`, name `"Note N"` where `N` is the tab count
plus one at creation time, and empty content; it makes that note active and
clears the editor without re-capturing the just-flushed content (the flush
into the model happens exactly once, in the equation's `captureContent`).
The generated id is unique among all notes only under the hypothesis that
no existing note already carries it — two creates in the same millisecond
violate that and produce colliding ids. -/
theorem claim_C3 (st : AppState) (now : Nat)
    (hwf : WellFormed st)
    (hfresh : ("tab-" ++ toString now) ∉ st.tabs.map Note.id) :
    (createTab now st).tabs =
      captureContent st.activeTabId (getHTML st) now st.tabs ++
        [{ id := "tab-" ++ toString now
           name := "Note " ++ toString (st.tabs.length + 1)
           content := ""
           createdAt := now
           updatedAt := now }] ∧
    (createTab now st).tabs.length = st.tabs.length + 1 ∧
    (createTab now st).activeTabId = some ("tab-" ++ toString now) ∧
    (createTab now st).editorHTML = "" ∧
    ((st.tabs.map Note.id).Nodup → ((createTab now st).tabs.map Note.id).Nodup) := by
  have hfresh2 : ∀ u ∈ st.tabs, u.id ≠ "tab-" ++ toString now := by
    intro u hu hcontra
    exact hfresh (hcontra ▸ List.mem_map_of_mem Note.id hu)
  have hne : ¬ some ("tab-" ++ toString now) = st.activeTabId := by
    intro hcontra
    obtain ⟨hpos, t, ht, htid⟩ := hwf
    rw [← hcontra] at htid
    exact hfresh2 t ht (Option.some.inj htid)
  have hcapids : ∀ u ∈ captureContent st.activeTabId (getHTML st) now st.tabs,
      u.id ≠ "tab-" ++ toString now := by
    intro u hu
    have : u.id ∈ (captureContent st.activeTabId (getHTML st) now st.tabs).map Note.id :=
      List.mem_map_of_mem Note.id hu
    rw [captureContent_map_id] at this
    obtain ⟨v, hv, hvid⟩ := List.mem_map.mp this
    rw [← hvid]
    exact hfresh2 v hv
  refine ⟨createTab_tabs now st, ?_, createTab_active now st, ?_, ?_⟩
  · rw [createTab_tabs]
    simp [length_captureContent]
  · have step : ∀ (stx : AppState),
        stx.activeTabId = st.activeTabId →
        stx.tabs = captureContent st.activeTabId (getHTML st) now st.tabs ++
          [{ id := "tab-" ++ toString now
             name := "Note " ++ toString (st.tabs.length + 1)
             content := ""
             createdAt := now
             updatedAt := now }] →
        (switchTo now ("tab-" ++ toString now) true stx).editorHTML = "" := by
      intro stx hact htabs
      rw [switchTo_editor now _ true stx (by rw [hact]; exact hne)]
      have hskip : (if true = true then stx.tabs
          else captureContent stx.activeTabId (getHTML stx) now stx.tabs) = stx.tabs := by
        simp
      rw [hskip, htabs, findTab_append _ _ _ hcapids]
      rw [show ("tab-" ++ toString now) =
        ({ id := "tab-" ++ toString now
           name := "Note " ++ toString (st.tabs.length + 1)
           content := ""
           createdAt := now
           updatedAt := now } : Note).id from rfl]
      rw [findTab_cons_self]
    have heq : (createTab now st).editorHTML =
        (switchTo now ("tab-" ++ toString now) true
          { st with tabs := captureContent st.activeTabId (getHTML st) now st.tabs ++
              [{ id := "tab-" ++ toString now
                 name := "Note " ++ toString (st.tabs.length + 1)
                 content := ""
                 createdAt := now
                 updatedAt := now }] }).editorHTML := by
      show (switchTo now _ true _).editorHTML = _
      simp only [length_captureContent]
    rw [heq]
    exact step _ rfl rfl
  · intro hnd
    rw [createTab_tabs]
    rw [List.map_append, captureContent_map_id]
    simp [List.nodup_append, hnd, hfresh]

/-- C3, witness for the amended theorem: one `createTab` at time 5 on the
freshly initialised model (whose single note has id `tab-0`). -/
theorem claim_C3_witness :
    (createTab 5 (initFromStored 0 none)).tabs =
      captureContent (initFromStored 0 none).activeTabId
        (getHTML (initFromStored 0 none)) 5 (initFromStored 0 none).tabs ++
        [{ id := "tab-" ++ toString 5
           name := "Note " ++ toString ((initFromStored 0 none).tabs.length + 1)
           content := ""
           createdAt := 5
           updatedAt := 5 }] ∧
    (createTab 5 (initFromStored 0 none)).tabs.length =
      (initFromStored 0 none).tabs.length + 1 ∧
    (createTab 5 (initFromStored 0 none)).activeTabId =
      some ("tab-" ++ toString 5) ∧
    (createTab 5 (initFromStored 0 none)).editorHTML = "" ∧
    (((initFromStored 0 none).tabs.map Note.id).Nodup →
      ((createTab 5 (initFromStored 0 none)).tabs.map Note.id).Nodup) :=
  claim_C3 (initFromStored 0 none) 5 (by decide) (by decide)

/-! ### Claim C2 — `switchTo` on a non-existent id -/

/-- C2, counterexample: `switchTo` with a target id that belongs to no note
is not a no-op.  On the freshly initialised model (a single note with id
`tab-0`), switching to `"ghost"` changes the state: it sets `activeTabId`
to the dangling id `"ghost"` and arms the save timer. -/
theorem claim_C2_counterexample :
    findTab "ghost" (initFromStored 0 none).tabs = none ∧
    switchTo 1 "ghost" false (initFromStored 0 none) ≠ initFromStored 0 none ∧
    (switchTo 1 "ghost" false (initFromStored 0 none)).activeTabId = some "ghost" ∧
    (switchTo 1 "ghost" false (initFromStored 0 none)).saveTimer = some 601 := by
  decide

/-- C2, amended: `switchTo(targetId)` with a `targetId` that is not the id of
any note (and differs from the current `activeTabId`) is not a no-op: it
captures the current note's live content into the model, sets `activeTabId`
to the dangling `targetId`, clears the editor surface, and schedules a
save. -/
theorem claim_C2 (st : AppState) (tabId : String) (now : Nat)
    (hmiss : findTab tabId st.tabs = none)
    (hact : some tabId ≠ st.activeTabId) :
    switchTo now tabId false st =
      { st with
        tabs := captureContent st.activeTabId (getHTML st) now st.tabs
        activeTabId := some tabId
        editorHTML := ""
        isDirty := true
        saveTimer := some (now + 600) } := by
  unfold switchTo
  rw [if_neg hact]
  have h2 : findTab tabId (captureContent st.activeTabId (getHTML st) now st.tabs)
      = none := findTab_captureContent_none _ _ _ _ _ hmiss
  show scheduleSave now _ = _
  unfold scheduleSave
  simp only [Bool.false_eq_true, if_false, h2]

/-- C2, witness for the amended theorem at a concrete input. -/
theorem claim_C2_witness :
    switchTo 1 "ghost" false (initFromStored 0 none) =
      { initFromStored 0 none with
        tabs := captureContent (initFromStored 0 none).activeTabId
          (getHTML (initFromStored 0 none)) 1 (initFromStored 0 none).tabs
        activeTabId := some "ghost"
        editorHTML := ""
        isDirty := true
        saveTimer := some 601 } :=
  claim_C2 (initFromStored 0 none) "ghost" 1 (by decide) (by decide)

/-! ### Claim C5 — debounce coalescing -/

theorem fireTimes_armed_burst :
    ∀ (ts : List Nat) (t : Nat),
      List.Chain (fun a b => a ≤ b ∧ b < a + 600) t ts →
      fireTimes (some (t + 600)) ts = [ts.getLastD t + 600] := by
  intro ts
  induction ts with
  | nil => intro t _; rfl
  | cons u us ih =>
    intro t hch
    obtain ⟨⟨hle, hlt⟩, hch2⟩ := List.chain_cons.mp hch
    show (if t + 600 ≤ u then (t + 600) :: fireTimes (some (u + 600)) us
          else fireTimes (some (u + 600)) us) = [(u :: us).getLastD t + 600]
    rw [if_neg (by omega), ih u hch2, List.getLastD_cons]

/-- C5: for every burst of `N ≥ 1` `scheduleSave()` calls at times
`t :: ts` in which each call occurs (weakly) after the previous one and
less than the 600 ms quiescence window later, the timer machinery produces
exactly one flush firing, 600 ms after the last call; and every
`scheduleSave` cancels whatever timer is armed and re-arms the deadline
`now + 600` while marking the state dirty. -/
theorem claim_C5 :
    (∀ (t : Nat) (ts : List Nat),
      List.Chain (fun a b => a ≤ b ∧ b < a + 600) t ts →
      fireTimes none (t :: ts) = [ts.getLastD t + 600]) ∧
    (∀ (st : AppState) (now : Nat),
      (scheduleSave now st).saveTimer = some (now + 600) ∧
      (scheduleSave now st).isDirty = true) := by
  constructor
  · intro t ts hch
    show fireTimes (some (t + 600)) ts = _
    exact fireTimes_armed_burst ts t hch
  · intro st now
    exact ⟨rfl, rfl⟩

/-- C5, witness: three calls at 0, 100, 300 ms (every gap below 600 ms)
produce exactly the single firing time 900 = 300 + 600. -/
theorem claim_C5_witness :
    fireTimes none [0, 100, 300] = [([100, 300].getLastD 0) + 600] :=
  claim_C5.1 0 [100, 300]
    (List.Chain.cons ⟨by decide, by decide⟩
      (List.Chain.cons ⟨by decide, by decide⟩ List.Chain.nil))

/-! ### Claim C6 — `flush` -/

theorem captureContent_idem (aid : Option String) (html : String) (now : Nat) :
    ∀ ts : List Note,
      captureContent aid html now (captureContent aid html now ts) =
        captureContent aid html now ts := by
  intro ts
  induction ts with
  | nil => rfl
  | cons t ts ih =>
    by_cases h : some t.id = aid
    · simp [captureContent, h]
    · simp [captureContent, h, ih]

theorem captureContent_quad (aid : Option String) (html : String) (now : Nat) :
    ∀ ts : List Note, (∀ t ∈ ts, some t.id = aid → t.content = html) →
      (captureContent aid html now ts).map (fun t => (t.id, t.name, t.content, t.createdAt)) =
        ts.map (fun t => (t.id, t.name, t.content, t.createdAt)) := by
  intro ts
  induction ts with
  | nil => intro _; rfl
  | cons t ts ih =>
    intro h
    by_cases ht : some t.id = aid
    · simp only [captureContent, if_pos ht, List.map_cons]
      rw [h t (by simp) ht]
    · simp only [captureContent, if_neg ht, List.map_cons]
      rw [ih fun u hu => h u (by simp [hu])]

/-- C6, counterexample: even in a state where nothing is dirty and the
editor mirrors the active note's stored content, `flush` is not a no-op on
the model: it stamps the active note's `updatedAt` with the current time
(popup.js line 61), so the model changes whenever the clock has moved. -/
theorem claim_C6_counterexample :
    ({ tabs := [{ id := "a", name := "n", content := "x", createdAt := 0, updatedAt := 0 }]
       activeTabId := some "a", isDirty := false, saveTimer := none,
       editorHTML := "x" } : AppState).isDirty = false ∧
    getHTML { tabs := [{ id := "a", name := "n", content := "x", createdAt := 0, updatedAt := 0 }]
              activeTabId := some "a", isDirty := false, saveTimer := none,
              editorHTML := "x" } = "x" ∧
    (flush 5 { tabs := [{ id := "a", name := "n", content := "x", createdAt := 0, updatedAt := 0 }]
               activeTabId := some "a", isDirty := false, saveTimer := none,
               editorHTML := "x" }).1 ≠
      { tabs := [{ id := "a", name := "n", content := "x", createdAt := 0, updatedAt := 0 }]
        activeTabId := some "a", isDirty := false, saveTimer := none,
        editorHTML := "x" } := by
  decide

/-- C6, amended: `flush()` captures the active note's live editor content
into its model entry, clears the dirty flag and any pending timer, and
saves the `{activeTabId, tabs}` snapshot as one blob; it never touches
`activeTabId` or the editor surface.  Calling it when nothing is dirty is
safe, but it is a no-op on the model only up to the active note's
`updatedAt`, which it stamps with the current time: when the editor mirrors
the active note's content, ids, names, contents, creation times and order
are all unchanged; and an immediately repeated `flush` at the same instant
changes nothing further (idempotence). -/
theorem claim_C6 :
    (∀ (st : AppState) (now : Nat),
      (flush now st).1.isDirty = false ∧
      (flush now st).1.saveTimer = none ∧
      (flush now st).1.tabs =
        captureContent st.activeTabId (getHTML st) now st.tabs ∧
      (flush now st).1.activeTabId = st.activeTabId ∧
      (flush now st).1.editorHTML = st.editorHTML ∧
      (flush now st).2 =
        { activeTabId := st.activeTabId, tabs := (flush now st).1.tabs }) ∧
    (∀ (st : AppState) (now : Nat), flush now (flush now st).1 = flush now st) ∧
    (∀ (st : AppState) (now : Nat),
      (∀ t ∈ st.tabs, some t.id = st.activeTabId → t.content = getHTML st) →
      (flush now st).1.tabs.map (fun t => (t.id, t.name, t.content, t.createdAt)) =
        st.tabs.map (fun t => (t.id, t.name, t.content, t.createdAt))) := by
  refine ⟨?_, ?_, ?_⟩
  · intro st now
    exact ⟨rfl, rfl, rfl, rfl, rfl, rfl⟩
  · intro st now
    show (⟨_, _⟩ : AppState × Snapshot) = ⟨_, _⟩
    have h := captureContent_idem st.activeTabId (getHTML st) now st.tabs
    simp only [flush, getHTML] at h ⊢
    rw [h]
  · intro st now h
    show (captureContent st.activeTabId (getHTML st) now st.tabs).map
        (fun t => (t.id, t.name, t.content, t.createdAt)) = _
    exact captureContent_quad st.activeTabId (getHTML st) now st.tabs h

/-- C6, witness: the frame part of the amended theorem applied to a concrete
clean state whose editor mirrors the active note. -/
theorem claim_C6_witness :
    (flush 5 { tabs := [{ id := "a", name := "n", content := "x", createdAt := 0, updatedAt := 0 }]
               activeTabId := some "a", isDirty := false, saveTimer := none,
               editorHTML := "x" }).1.tabs.map (fun t => (t.id, t.name, t.content, t.createdAt)) =
      ([{ id := "a", name := "n", content := "x", createdAt := 0, updatedAt := 0 }] : List Note).map
        (fun t => (t.id, t.name, t.content, t.createdAt)) :=
  claim_C6.2.2
    { tabs := [{ id := "a", name := "n", content := "x", createdAt := 0, updatedAt := 0 }]
      activeTabId := some "a", isDirty := false, saveTimer := none, editorHTML := "x" }
    5 (by decide)

/-! ### Claim C7 — drag-and-drop reorder -/

theorem onDrop_eq (now : Nat) (dragId targetId : String) (pos : DropPos)
    (st : AppState) (fromIdx targetIdx : Nat)
    (hne : dragId ≠ targetId)
    (hf : findIndexId dragId st.tabs = some fromIdx)
    (ht : findIndexId targetId st.tabs = some targetIdx) :
    onDrop now dragId targetId pos st =
      { st with
        tabs := (st.tabs.eraseIdx fromIdx).insertIdx
          (if fromIdx < targetIdx + (if pos = DropPos.after then 1 else 0)
           then targetIdx + (if pos = DropPos.after then 1 else 0) - 1
           else targetIdx + (if pos = DropPos.after then 1 else 0))
          (st.tabs.getD fromIdx dummyNote)
        isDirty := true
        saveTimer := some (now + 600) } := by
  unfold onDrop
  rw [if_neg hne]
  simp only [hf, ht]
  simp [scheduleSave]

/-- C7: for every tab list and every valid drop (dragged note and reference
note both present — pinned down by a decomposition naming their first
occurrences — and distinct), the reorder performed on drop moves the
dragged note `d` to the position immediately before (`DropPos.before`) or
immediately after (`DropPos.after`) the reference note `r`, and preserves
all other relative orderings: in each of the four cases (drag from the left
or from the right of the reference, drop before or after it) the resulting
list keeps every other note in its original relative position, as the
explicit list equations show.  A save is scheduled. -/
theorem claim_C7 :
    (∀ (A B C : List Note) (d r : Note) (st : AppState) (now : Nat),
      st.tabs = A ++ d :: (B ++ r :: C) →
      (∀ u ∈ A, u.id ≠ d.id) → (∀ u ∈ A, u.id ≠ r.id) →
      d.id ≠ r.id → (∀ u ∈ B, u.id ≠ r.id) →
      onDrop now d.id r.id DropPos.before st =
        { st with tabs := A ++ (B ++ d :: r :: C), isDirty := true
                  saveTimer := some (now + 600) }) ∧
    (∀ (A B C : List Note) (d r : Note) (st : AppState) (now : Nat),
      st.tabs = A ++ d :: (B ++ r :: C) →
      (∀ u ∈ A, u.id ≠ d.id) → (∀ u ∈ A, u.id ≠ r.id) →
      d.id ≠ r.id → (∀ u ∈ B, u.id ≠ r.id) →
      onDrop now d.id r.id DropPos.after st =
        { st with tabs := A ++ (B ++ r :: d :: C), isDirty := true
                  saveTimer := some (now + 600) }) ∧
    (∀ (A B C : List Note) (d r : Note) (st : AppState) (now : Nat),
      st.tabs = A ++ r :: (B ++ d :: C) →
      (∀ u ∈ A, u.id ≠ r.id) → (∀ u ∈ A, u.id ≠ d.id) →
      r.id ≠ d.id → (∀ u ∈ B, u.id ≠ d.id) →
      onDrop now d.id r.id DropPos.before st =
        { st with tabs := A ++ d :: r :: (B ++ C), isDirty := true
                  saveTimer := some (now + 600) }) ∧
    (∀ (A B C : List Note) (d r : Note) (st : AppState) (now : Nat),
      st.tabs = A ++ r :: (B ++ d :: C) →
      (∀ u ∈ A, u.id ≠ r.id) → (∀ u ∈ A, u.id ≠ d.id) →
      r.id ≠ d.id → (∀ u ∈ B, u.id ≠ d.id) →
      onDrop now d.id r.id DropPos.after st =
        { st with tabs := A ++ r :: d :: (B ++ C), isDirty := true
                  saveTimer := some (now + 600) }) := by
  refine ⟨?_, ?_, ?_, ?_⟩
  · -- drag left of reference, drop before
    intro A B C d r st now htabs hdA hrA hdr hrB
    have htabs2 : st.tabs = (A ++ d :: B) ++ r :: C := by rw [htabs]; simp
    have hf : findIndexId d.id st.tabs = some A.length := by
      rw [htabs, findIndexId_append d.id A _ hdA, findIndexId_cons_self]
      simp
    have hAdB : ∀ u ∈ A ++ d :: B, u.id ≠ r.id := by
      intro u hu
      rcases List.mem_append.mp hu with h | h
      · exact hrA u h
      · rcases List.mem_cons.mp h with h2 | h2
        · rw [h2]; exact hdr
        · exact hrB u h2
    have ht : findIndexId r.id st.tabs = some (A ++ d :: B).length := by
      rw [htabs2, findIndexId_append r.id (A ++ d :: B) _ hAdB, findIndexId_cons_self]
      simp
    rw [onDrop_eq now d.id r.id DropPos.before st A.length (A ++ d :: B).length
      hdr hf ht]
    have hidx : (if A.length < (A ++ d :: B).length +
          (if DropPos.before = DropPos.after then 1 else 0)
        then (A ++ d :: B).length +
          (if DropPos.before = DropPos.after then 1 else 0) - 1
        else (A ++ d :: B).length +
          (if DropPos.before = DropPos.after then 1 else 0)) = (A ++ B).length := by
      rw [show (if DropPos.before = DropPos.after then 1 else 0) = 0 from rfl]
      rw [if_pos (by simp only [List.length_append, List.length_cons]; omega)]
      simp only [List.length_append, List.length_cons]
      omega
    rw [hidx, htabs, eraseIdx_append_length, getD_append_length]
    have hassoc : A ++ (B ++ r :: C) = (A ++ B) ++ r :: C := by simp
    rw [hassoc, insertIdx_append_length]
    simp
  · -- drag left of reference, drop after
    intro A B C d r st now htabs hdA hrA hdr hrB
    have htabs2 : st.tabs = (A ++ d :: B) ++ r :: C := by rw [htabs]; simp
    have hf : findIndexId d.id st.tabs = some A.length := by
      rw [htabs, findIndexId_append d.id A _ hdA, findIndexId_cons_self]
      simp
    have hAdB : ∀ u ∈ A ++ d :: B, u.id ≠ r.id := by
      intro u hu
      rcases List.mem_append.mp hu with h | h
      · exact hrA u h
      · rcases List.mem_cons.mp h with h2 | h2
        · rw [h2]; exact hdr
        · exact hrB u h2
    have ht : findIndexId r.id st.tabs = some (A ++ d :: B).length := by
      rw [htabs2, findIndexId_append r.id (A ++ d :: B) _ hAdB, findIndexId_cons_self]
      simp
    rw [onDrop_eq now d.id r.id DropPos.after st A.length (A ++ d :: B).length
      hdr hf ht]
    have hidx : (if A.length < (A ++ d :: B).length +
          (if DropPos.after = DropPos.after then 1 else 0)
        then (A ++ d :: B).length +
          (if DropPos.after = DropPos.after then 1 else 0) - 1
        else (A ++ d :: B).length +
          (if DropPos.after = DropPos.after then 1 else 0)) = ((A ++ B) ++ [r]).length := by
      rw [show (if DropPos.after = DropPos.after then 1 else 0) = 1 from rfl]
      rw [if_pos (by simp only [List.length_append, List.length_cons]; omega)]
      simp only [List.length_append, List.length_cons, List.length_nil]
      omega
    rw [hidx, htabs, eraseIdx_append_length, getD_append_length]
    have hassoc : A ++ (B ++ r :: C) = ((A ++ B) ++ [r]) ++ C := by simp
    rw [hassoc, insertIdx_append_length]
    simp
  · -- drag right of reference, drop before
    intro A B C d r st now htabs hrA hdA hrd hdB
    have htabs2 : st.tabs = (A ++ r :: B) ++ d :: C := by rw [htabs]; simp
    have hArB : ∀ u ∈ A ++ r :: B, u.id ≠ d.id := by
      intro u hu
      rcases List.mem_append.mp hu with h | h
      · exact hdA u h
      · rcases List.mem_cons.mp h with h2 | h2
        · rw [h2]; exact hrd
        · exact hdB u h2
    have hf : findIndexId d.id st.tabs = some (A ++ r :: B).length := by
      rw [htabs2, findIndexId_append d.id (A ++ r :: B) _ hArB, findIndexId_cons_self]
      simp
    have ht : findIndexId r.id st.tabs = some A.length := by
      rw [htabs, findIndexId_append r.id A _ hrA, findIndexId_cons_self]
      simp
    have hne : d.id ≠ r.id := fun h => hrd h.symm
    rw [onDrop_eq now d.id r.id DropPos.before st (A ++ r :: B).length A.length
      hne hf ht]
    have hidx : (if (A ++ r :: B).length < A.length +
          (if DropPos.before = DropPos.after then 1 else 0)
        then A.length + (if DropPos.before = DropPos.after then 1 else 0) - 1
        else A.length + (if DropPos.before = DropPos.after then 1 else 0))
        = A.length := by
      rw [show (if DropPos.before = DropPos.after then 1 else 0) = 0 from rfl]
      rw [if_neg (by simp only [List.length_append, List.length_cons]; omega)]
      omega
    rw [hidx, htabs2, eraseIdx_append_length, getD_append_length]
    have hassoc : (A ++ r :: B) ++ C = A ++ (r :: B ++ C) := by simp
    rw [hassoc, insertIdx_append_length]
    simp
  · -- drag right of reference, drop after
    intro A B C d r st now htabs hrA hdA hrd hdB
    have htabs2 : st.tabs = (A ++ r :: B) ++ d :: C := by rw [htabs]; simp
    have hArB : ∀ u ∈ A ++ r :: B, u.id ≠ d.id := by
      intro u hu
      rcases List.mem_append.mp hu with h | h
      · exact hdA u h
      · rcases List.mem_cons.mp h with h2 | h2
        · rw [h2]; exact hrd
        · exact hdB u h2
    have hf : findIndexId d.id st.tabs = some (A ++ r :: B).length := by
      rw [htabs2, findIndexId_append d.id (A ++ r :: B) _ hArB, findIndexId_cons_self]
      simp
    have ht : findIndexId r.id st.tabs = some A.length := by
      rw [htabs, findIndexId_append r.id A _ hrA, findIndexId_cons_self]
      simp
    have hne : d.id ≠ r.id := fun h => hrd h.symm
    rw [onDrop_eq now d.id r.id DropPos.after st (A ++ r :: B).length A.length
      hne hf ht]
    have hidx : (if (A ++ r :: B).length < A.length +
          (if DropPos.after = DropPos.after then 1 else 0)
        then A.length + (if DropPos.after = DropPos.after then 1 else 0) - 1
        else A.length + (if DropPos.after = DropPos.after then 1 else 0))
        = (A ++ [r]).length := by
      rw [show (if DropPos.after = DropPos.after then 1 else 0) = 1 from rfl]
      rw [if_neg (by simp only [List.length_append, List.length_cons]; omega)]
      simp only [List.length_append, List.length_cons, List.length_nil]
    rw [hidx, htabs2, eraseIdx_append_length, getD_append_length]
    have hassoc : (A ++ r :: B) ++ C = (A ++ [r]) ++ (B ++ C) := by simp
    rw [hassoc, insertIdx_append_length]
    simp

/-- C7, witness: dropping tab `d` before tab `r` across one intervening tab
moves it to the position immediately before `r` and leaves the others in
relative order. -/
theorem claim_C7_witness :
    onDrop 3 "d" "r" DropPos.before
      { tabs :=
          [{ id := "a", name := "A", content := "", createdAt := 0, updatedAt := 0 },
           { id := "d", name := "D", content := "", createdAt := 1, updatedAt := 1 },
           { id := "b", name := "B", content := "", createdAt := 2, updatedAt := 2 },
           { id := "r", name := "R", content := "", createdAt := 3, updatedAt := 3 }]
        activeTabId := some "a", isDirty := false, saveTimer := none, editorHTML := "" } =
      { tabs :=
          [{ id := "a", name := "A", content := "", createdAt := 0, updatedAt := 0 },
           { id := "b", name := "B", content := "", createdAt := 2, updatedAt := 2 },
           { id := "d", name := "D", content := "", createdAt := 1, updatedAt := 1 },
           { id := "r", name := "R", content := "", createdAt := 3, updatedAt := 3 }]
        activeTabId := some "a", isDirty := true, saveTimer := some 603, editorHTML := "" } :=
  claim_C7.1
    [{ id := "a", name := "A", content := "", createdAt := 0, updatedAt := 0 }]
    [{ id := "b", name := "B", content := "", createdAt := 2, updatedAt := 2 }]
    []
    { id := "d", name := "D", content := "", createdAt := 1, updatedAt := 1 }
    { id := "r", name := "R", content := "", createdAt := 3, updatedAt := 3 }
    _ 3 rfl (by decide) (by decide) (by decide) (by decide)

/-! ### Claim C10 — frame property of deleting a non-active tab -/

/-- C10: with more than one note, deleting a note that exists but is not
active (the decomposition hypotheses pin down the first occurrence of the
deleted id) removes exactly that note and changes nothing else: the state
is unchanged except for the deleted entry, the dirty flag, and the armed
save timer — in particular `activeTabId`, the editor surface, every
remaining note's fields, and their order are untouched. -/
theorem claim_C10 (A C : List Note) (t : Note) (st : AppState) (now : Nat)
    (htabs : st.tabs = A ++ t :: C)
    (hA : ∀ u ∈ A, u.id ≠ t.id)
    (hact : st.activeTabId ≠ some t.id)
    (hlen : 1 < st.tabs.length) :
    deleteTab now t.id true st =
      { st with tabs := A ++ C, isDirty := true, saveTimer := some (now + 600) } := by
  unfold deleteTab
  rw [if_neg (by omega)]
  have hidx : findIndexId t.id st.tabs = some A.length := by
    rw [htabs, findIndexId_append t.id A (t :: C) hA, findIndexId_cons_self]
    simp
  rw [hidx]
  show scheduleSave now _ = _
  rw [if_neg hact]
  unfold scheduleSave
  simp only [htabs, eraseIdx_append_length]

/-- C10, witness at a concrete input. -/
theorem claim_C10_witness :
    deleteTab 9 "b" true
      { tabs :=
          [{ id := "a", name := "A", content := "ca", createdAt := 0, updatedAt := 0 },
           { id := "b", name := "B", content := "cb", createdAt := 1, updatedAt := 1 },
           { id := "c", name := "C", content := "cc", createdAt := 2, updatedAt := 2 }]
        activeTabId := some "a", isDirty := false, saveTimer := none, editorHTML := "ca" } =
      { tabs :=
          [{ id := "a", name := "A", content := "ca", createdAt := 0, updatedAt := 0 },
           { id := "c", name := "C", content := "cc", createdAt := 2, updatedAt := 2 }]
        activeTabId := some "a", isDirty := true, saveTimer := some 609, editorHTML := "ca" } :=
  claim_C10
    [{ id := "a", name := "A", content := "ca", createdAt := 0, updatedAt := 0 }]
    [{ id := "c", name := "C", content := "cc", createdAt := 2, updatedAt := 2 }]
    { id := "b", name := "B", content := "cb", createdAt := 1, updatedAt := 1 }
    _ 9 rfl (by decide) (by decide) (by decide)

/-! ### Claim C4 — deleting the active tab selects its neighbour -/

/-- C4: with more than one note, deleting the note that is currently active
at index `i` (here `i = A.length`, pinned down by the decomposition)
removes it and selects the note at index `min(i, length-1)` of the updated
list — the note now occupying index `i` when the deleted one was not last,
and the new last note when it was — and loads that note's content into the
editor surface immediately. -/
theorem claim_C4 (A C : List Note) (t : Note) (st : AppState) (now : Nat)
    (htabs : st.tabs = A ++ t :: C)
    (hA : ∀ u ∈ A, u.id ≠ t.id)
    (hact : st.activeTabId = some t.id)
    (hlen : 1 < st.tabs.length) :
    (deleteTab now t.id true st).tabs = A ++ C ∧
    (deleteTab now t.id true st).activeTabId =
      some ((A ++ C).getD (min A.length ((A ++ C).length - 1)) dummyNote).id ∧
    (deleteTab now t.id true st).editorHTML =
      ((A ++ C).getD (min A.length ((A ++ C).length - 1)) dummyNote).content ∧
    (∀ hC : C ≠ [],
      (deleteTab now t.id true st).activeTabId = some (C.head hC).id ∧
      (deleteTab now t.id true st).editorHTML = (C.head hC).content) ∧
    (C = [] → ∀ hA2 : A ≠ [],
      (deleteTab now t.id true st).activeTabId = some (A.getLast hA2).id ∧
      (deleteTab now t.id true st).editorHTML = (A.getLast hA2).content) := by
  have hmain : deleteTab now t.id true st =
      { st with
        tabs := A ++ C
        activeTabId :=
          some ((A ++ C).getD (min A.length ((A ++ C).length - 1)) dummyNote).id
        editorHTML :=
          ((A ++ C).getD (min A.length ((A ++ C).length - 1)) dummyNote).content
        isDirty := true
        saveTimer := some (now + 600) } := by
    unfold deleteTab
    rw [if_neg (by omega)]
    have hidx : findIndexId t.id st.tabs = some A.length := by
      rw [htabs, findIndexId_append t.id A (t :: C) hA, findIndexId_cons_self]
      simp
    rw [hidx]
    show scheduleSave now _ = _
    rw [if_pos hact]
    unfold scheduleSave
    simp only [htabs, eraseIdx_append_length]
  refine ⟨by rw [hmain], by rw [hmain], by rw [hmain], ?_, ?_⟩
  · intro hC
    obtain ⟨c, C', rfl⟩ : ∃ c C', C = c :: C' := by
      cases C with
      | nil => exact absurd rfl hC
      | cons c C' => exact ⟨c, C', rfl⟩
    have hmin : min A.length ((A ++ c :: C').length - 1) = A.length := by
      simp only [List.length_append, List.length_cons]
      omega
    rw [hmain]
    simp only [hmin, getD_append_length]
    exact ⟨rfl, rfl⟩
  · intro hC hA2
    subst hC
    have hAlen : 0 < A.length := by
      cases A with
      | nil => exact absurd rfl hA2
      | cons a A' => simp
    have hmin : min A.length (A.length - 1) = A.length - 1 := by omega
    rw [hmain]
    simp only [List.append_nil, hmin, getD_last A hA2]
    constructor <;> trivial

/-- C4, witness at a concrete input (deleting the active middle note selects
the note that moves into its index). -/
theorem claim_C4_witness :
    (deleteTab 9 "b" true
      { tabs :=
          [{ id := "a", name := "A", content := "ca", createdAt := 0, updatedAt := 0 },
           { id := "b", name := "B", content := "cb", createdAt := 1, updatedAt := 1 },
           { id := "c", name := "C", content := "cc", createdAt := 2, updatedAt := 2 }]
        activeTabId := some "b", isDirty := false, saveTimer := none,
        editorHTML := "cb" }).activeTabId = some "c" ∧
    (deleteTab 9 "b" true
      { tabs :=
          [{ id := "a", name := "A", content := "ca", createdAt := 0, updatedAt := 0 },
           { id := "b", name := "B", content := "cb", createdAt := 1, updatedAt := 1 },
           { id := "c", name := "C", content := "cc", createdAt := 2, updatedAt := 2 }]
        activeTabId := some "b", isDirty := false, saveTimer := none,
        editorHTML := "cb" }).editorHTML = "cc" := by
  have h := claim_C4
    [{ id := "a", name := "A", content := "ca", createdAt := 0, updatedAt := 0 }]
    [{ id := "c", name := "C", content := "cc", createdAt := 2, updatedAt := 2 }]
    { id := "b", name := "B", content := "cb", createdAt := 1, updatedAt := 1 }
    { tabs :=
        [{ id := "a", name := "A", content := "ca", createdAt := 0, updatedAt := 0 },
         { id := "b", name := "B", content := "cb", createdAt := 1, updatedAt := 1 },
         { id := "c", name := "C", content := "cc", createdAt := 2, updatedAt := 2 }]
      activeTabId := some "b", isDirty := false, saveTimer := none, editorHTML := "cb" }
    9 rfl (by decide) (by decide) (by decide)
  exact ⟨(h.2.2.2.1 (by decide)).1, (h.2.2.2.1 (by decide)).2⟩

/-! ### Claim C8 — `linkifyPlainText` -/

theorem length_dropWhile_le_custom (p : Char → Bool) :
    ∀ l : List Char, (l.dropWhile p).length ≤ l.length := by
  intro l
  induction l with
  | nil => simp [List.dropWhile]
  | cons c cs ih =>
    by_cases h : p c
    · simp only [List.dropWhile, h, List.length_cons]
      omega
    · simp only [List.dropWhile, h]
      simp

theorem isPrefixOf_length_le :
    ∀ (a b : List Char), a.isPrefixOf b = true → a.length ≤ b.length := by
  intro a
  induction a with
  | nil => intro b _; simp
  | cons x xs ih =>
    intro b hb
    cases b with
    | nil => simp [List.isPrefixOf] at hb
    | cons y ys =>
      simp only [List.isPrefixOf, Bool.and_eq_true] at hb
      have := ih ys hb.2
      simp only [List.length_cons]
      omega

theorem urlToken_rest_lt (cs tok rest : List Char)
    (hu : urlToken cs = some (tok, rest)) : rest.length < cs.length := by
  unfold urlToken at hu
  by_cases h8 : httpsChars.isPrefixOf cs
  · have hlen := isPrefixOf_length_le _ _ h8
    simp only [h8, if_true] at hu
    by_cases hw : ((cs.drop 8).takeWhile (fun c => !isJsSpace c)).isEmpty
    · simp [hw] at hu
    · simp only [hw, Bool.false_eq_true, if_false, Option.some.injEq,
        Prod.mk.injEq] at hu
      have := length_dropWhile_le_custom (fun c => !isJsSpace c) (cs.drop 8)
      simp only [List.length_drop] at this
      simp only [httpsChars, List.length_cons, List.length_nil] at hlen
      rw [← hu.2]
      omega
  · simp only [h8, Bool.false_eq_true, if_false] at hu
    by_cases h7 : httpChars.isPrefixOf cs
    · have hlen := isPrefixOf_length_le _ _ h7
      simp only [h7, if_true] at hu
      by_cases hw : ((cs.drop 7).takeWhile (fun c => !isJsSpace c)).isEmpty
      · simp [hw] at hu
      · simp only [hw, Bool.false_eq_true, if_false, Option.some.injEq,
          Prod.mk.injEq] at hu
        have := length_dropWhile_le_custom (fun c => !isJsSpace c) (cs.drop 7)
        simp only [List.length_drop] at this
        simp only [httpChars, List.length_cons, List.length_nil] at hlen
        rw [← hu.2]
        omega
    · simp [h7] at hu

theorem portalToken_rest_lt (prev : Option Char) (cs tok rest : List Char)
    (h : portalToken prev cs = some (tok, rest)) : rest.length < cs.length := by
  unfold portalToken at h
  by_cases hb : boundaryBeforeOk prev
  · simp only [hb, if_true] at h
    by_cases h7 : portalChars.isPrefixOf cs
    · have hlen := isPrefixOf_length_le _ _ h7
      simp only [h7, if_true] at h
      by_cases hr : ((cs.drop 7).takeWhile isAlnumChar).isEmpty
      · simp [hr] at h
      · simp only [hr, Bool.false_eq_true, if_false] at h
        have hle := length_dropWhile_le_custom isAlnumChar (cs.drop 7)
        simp only [List.length_drop] at hle
        simp only [portalChars, List.length_cons, List.length_nil] at hlen
        cases hd : (cs.drop 7).dropWhile isAlnumChar with
        | nil =>
          rw [hd] at h
          simp only [Option.some.injEq, Prod.mk.injEq] at h
          rw [← h.2]
          simp only [List.length_nil]
          omega
        | cons c cs2 =>
          rw [hd] at h
          by_cases hw : isWordChar c
          · simp [hw] at h
          · simp only [hw, Bool.false_eq_true, if_false, Option.some.injEq,
              Prod.mk.injEq] at h
            rw [← h.2]
            rw [hd] at hle
            simp only [List.length_cons] at hle ⊢
            omega
    · simp [h7] at h
  · simp [hb] at h

theorem tokenAt_rest_lt (prev : Option Char) (cs tok rest : List Char)
    (h : tokenAt prev cs = some (tok, rest)) : rest.length < cs.length := by
  unfold tokenAt at h
  cases hu : urlToken cs with
  | some r =>
    rw [hu] at h
    simp only [Option.some.injEq] at h
    obtain ⟨tok1, rest1⟩ := r
    cases h
    exact urlToken_rest_lt cs tok rest hu
  | none =>
    rw [hu] at h
    exact portalToken_rest_lt prev cs tok rest h

theorem linkifyFuel_nil (fuel : Nat) (p : Option Char) :
    linkifyFuel fuel p [] = [] := by
  cases fuel <;> rfl

theorem linkifyFuel_cons_some (k : Nat) (p : Option Char) (c : Char)
    (cs tok rest : List Char) (h : tokenAt p (c :: cs) = some (tok, rest)) :
    linkifyFuel (k + 1) p (c :: cs) =
      renderToken tok ++ linkifyFuel k (some (tok.getLastD c)) rest := by
  simp only [linkifyFuel, h]

theorem linkifyFuel_cons_none (k : Nat) (p : Option Char) (c : Char)
    (cs : List Char) (h : tokenAt p (c :: cs) = none) :
    linkifyFuel (k + 1) p (c :: cs) = escChar c ++ linkifyFuel k (some c) cs := by
  simp only [linkifyFuel, h]

theorem linkifyFuel_congr :
    ∀ (f1 f2 : Nat) (p : Option Char) (cs : List Char),
      cs.length ≤ f1 → cs.length ≤ f2 →
      linkifyFuel f1 p cs = linkifyFuel f2 p cs := by
  intro f1
  induction f1 with
  | zero =>
    intro f2 p cs h1 _
    have : cs = [] := by
      cases cs with
      | nil => rfl
      | cons c cs => simp at h1
    subst this
    rw [linkifyFuel_nil, linkifyFuel_nil]
  | succ k ih =>
    intro f2 p cs h1 h2
    cases cs with
    | nil => rw [linkifyFuel_nil, linkifyFuel_nil]
    | cons c cs1 =>
      cases f2 with
      | zero => simp at h2
      | succ m =>
        cases htok : tokenAt p (c :: cs1) with
        | some pr =>
          obtain ⟨tok, rest⟩ := pr
          have hlt := tokenAt_rest_lt p (c :: cs1) tok rest htok
          simp only [List.length_cons] at hlt h1 h2
          rw [linkifyFuel_cons_some k p c cs1 tok rest htok,
            linkifyFuel_cons_some m p c cs1 tok rest htok,
            ih m (some (tok.getLastD c)) rest (by omega) (by omega)]
        | none =>
          rw [linkifyFuel_cons_none k p c cs1 htok,
            linkifyFuel_cons_none m p c cs1 htok]
          simp only [List.length_cons] at h1 h2
          rw [ih m (some c) cs1 (by omega) (by omega)]

theorem tokenAt_none_head (p : Option Char) (c : Char) (l : List Char)
    (hh : c ≠ 'h') (hP : c ≠ 'P') : tokenAt p (c :: l) = none := by
  have hh2 : ('h' == c) = false := by
    simp only [beq_eq_false_iff_ne, ne_eq]
    exact fun hcontra => hh hcontra.symm
  have hP2 : ('P' == c) = false := by
    simp only [beq_eq_false_iff_ne, ne_eq]
    exact fun hcontra => hP hcontra.symm
  have hurl : urlToken (c :: l) = none := by
    unfold urlToken
    rw [show httpsChars.isPrefixOf (c :: l) = false by
      simp [httpsChars, List.isPrefixOf, hh2]]
    rw [show httpChars.isPrefixOf (c :: l) = false by
      simp [httpChars, List.isPrefixOf, hh2]]
    simp
  have hpor : ∀ q, portalToken q (c :: l) = none := by
    intro q
    unfold portalToken
    rw [show portalChars.isPrefixOf (c :: l) = false by
      simp [portalChars, List.isPrefixOf, hP2]]
    simp
  unfold tokenAt
  rw [hurl, hpor]

theorem escapeChars_cons (c : Char) (l : List Char) :
    escapeChars (c :: l) = escChar c ++ escapeChars l := by
  simp [escapeChars]

theorem escapeChars_append (a b : List Char) :
    escapeChars (a ++ b) = escapeChars a ++ escapeChars b := by
  simp [escapeChars]

theorem linkifyFuel_inert_all :
    ∀ (post : List Char) (fuel : Nat) (p : Option Char),
      post.length ≤ fuel → (∀ c ∈ post, c ≠ 'h' ∧ c ≠ 'P') →
      linkifyFuel fuel p post = escapeChars post := by
  intro post
  induction post with
  | nil =>
    intro fuel p _ _
    rw [linkifyFuel_nil]
    rfl
  | cons c post ih =>
    intro fuel p hfuel hin
    obtain ⟨hh, hP⟩ := hin c (by simp)
    cases fuel with
    | zero => simp at hfuel
    | succ k =>
      rw [linkifyFuel_cons_none k p c post (tokenAt_none_head p c post hh hP)]
      rw [escapeChars_cons]
      simp only [List.length_cons] at hfuel
      rw [ih k (some c) (by omega) (fun u hu => hin u (by simp [hu]))]

theorem linkifyFuel_inert :
    ∀ (pre : List Char) (p : Option Char) (rest : List Char) (fuel : Nat),
      rest.length + pre.length ≤ fuel → (∀ c ∈ pre, c ≠ 'h' ∧ c ≠ 'P') →
      ∃ p2, linkifyFuel fuel p (pre ++ rest) =
        escapeChars pre ++ linkifyFuel rest.length p2 rest := by
  intro pre
  induction pre with
  | nil =>
    intro p rest fuel hfuel _
    refine ⟨p, ?_⟩
    rw [show escapeChars [] = [] from rfl]
    simp only [List.nil_append]
    exact linkifyFuel_congr fuel rest.length p rest (by omega) (by omega)
  | cons c pre ih =>
    intro p rest fuel hfuel hin
    obtain ⟨hh, hP⟩ := hin c (by simp)
    cases fuel with
    | zero => simp only [List.length_cons] at hfuel; omega
    | succ k =>
      show ∃ p2, linkifyFuel (k + 1) p (c :: (pre ++ rest)) = _
      rw [linkifyFuel_cons_none k p c (pre ++ rest)
        (tokenAt_none_head p c (pre ++ rest) hh hP)]
      simp only [List.length_cons] at hfuel
      obtain ⟨p2, heq⟩ := ih (some c) rest k (by omega)
        (fun u hu => hin u (by simp [hu]))
      refine ⟨p2, ?_⟩
      rw [heq, escapeChars_cons, List.append_assoc]

theorem takeWhile_all_append (p : Char → Bool) :
    ∀ (w rest : List Char), (∀ c ∈ w, p c = true) →
      (w ++ rest).takeWhile p = w ++ rest.takeWhile p := by
  intro w
  induction w with
  | nil => intro rest _; rfl
  | cons c w ih =>
    intro rest hw
    have hc : p c = true := hw c (by simp)
    show (c :: (w ++ rest)).takeWhile p = _
    simp only [List.takeWhile, hc]
    rw [ih rest (fun u hu => hw u (by simp [hu]))]
    rfl

theorem dropWhile_all_append (p : Char → Bool) :
    ∀ (w rest : List Char), (∀ c ∈ w, p c = true) →
      (w ++ rest).dropWhile p = rest.dropWhile p := by
  intro w
  induction w with
  | nil => intro rest _; rfl
  | cons c w ih =>
    intro rest hw
    have hc : p c = true := hw c (by simp)
    show (c :: (w ++ rest)).dropWhile p = _
    simp only [List.dropWhile, hc]
    exact ih rest (fun u hu => hw u (by simp [hu]))

theorem takeWhile_head_not (p : Char → Bool) (rest : List Char)
    (h : rest = [] ∨ p (rest.headD ' ') = false) : rest.takeWhile p = [] := by
  cases rest with
  | nil => rfl
  | cons c cs =>
    rcases h with h | h
    · simp at h
    · simp only [List.headD] at h
      simp [List.takeWhile, h]

theorem dropWhile_head_not (p : Char → Bool) (rest : List Char)
    (h : rest = [] ∨ p (rest.headD ' ') = false) : rest.dropWhile p = rest := by
  cases rest with
  | nil => rfl
  | cons c cs =>
    rcases h with h | h
    · simp at h
    · simp only [List.headD] at h
      simp [List.dropWhile, h]

theorem isPrefixOf_append_self :
    ∀ (A X : List Char), A.isPrefixOf (A ++ X) = true := by
  intro A
  induction A with
  | nil => intro X; cases X <;> rfl
  | cons a A ih =>
    intro X
    show (a :: A).isPrefixOf (a :: (A ++ X)) = true
    simp only [List.isPrefixOf, Bool.and_eq_true]
    exact ⟨by simp, ih X⟩

theorem urlToken_http (w post : List Char) (hw : w ≠ [])
    (hns : ∀ c ∈ w, isJsSpace c = false)
    (hpost : post = [] ∨ isJsSpace (post.headD ' ') = true) :
    urlToken (httpChars ++ (w ++ post)) = some (httpChars ++ w, post) := by
  have hns2 : ∀ c ∈ w, (fun c => !isJsSpace c) c = true := by
    intro c hc
    simp [hns c hc]
  have hpost2 : post = [] ∨ (fun c => !isJsSpace c) (post.headD ' ') = false := by
    rcases hpost with h | h
    · exact Or.inl h
    · exact Or.inr (by show (!isJsSpace (post.headD ' ')) = false; rw [h]; rfl)
  unfold urlToken
  rw [show httpsChars.isPrefixOf (httpChars ++ (w ++ post)) = false from rfl]
  rw [show httpChars.isPrefixOf (httpChars ++ (w ++ post)) = true from
    isPrefixOf_append_self httpChars (w ++ post)]
  simp only [Bool.false_eq_true, if_false, if_true]
  rw [show (httpChars ++ (w ++ post)).drop 7 = w ++ post from rfl]
  rw [takeWhile_all_append _ w post hns2, takeWhile_head_not _ post hpost2,
    dropWhile_all_append _ w post hns2, dropWhile_head_not _ post hpost2]
  rw [show (httpChars ++ (w ++ post)).take 7 = httpChars from rfl]
  simp only [List.append_nil]
  rw [if_neg (by simp [hw])]

theorem urlToken_https (w post : List Char) (hw : w ≠ [])
    (hns : ∀ c ∈ w, isJsSpace c = false)
    (hpost : post = [] ∨ isJsSpace (post.headD ' ') = true) :
    urlToken (httpsChars ++ (w ++ post)) = some (httpsChars ++ w, post) := by
  have hns2 : ∀ c ∈ w, (fun c => !isJsSpace c) c = true := by
    intro c hc
    simp [hns c hc]
  have hpost2 : post = [] ∨ (fun c => !isJsSpace c) (post.headD ' ') = false := by
    rcases hpost with h | h
    · exact Or.inl h
    · exact Or.inr (by show (!isJsSpace (post.headD ' ')) = false; rw [h]; rfl)
  unfold urlToken
  rw [show httpsChars.isPrefixOf (httpsChars ++ (w ++ post)) = true from
    isPrefixOf_append_self httpsChars (w ++ post)]
  simp only [if_true]
  rw [show (httpsChars ++ (w ++ post)).drop 8 = w ++ post from rfl]
  rw [takeWhile_all_append _ w post hns2, takeWhile_head_not _ post hpost2,
    dropWhile_all_append _ w post hns2, dropWhile_head_not _ post hpost2]
  rw [show (httpsChars ++ (w ++ post)).take 8 = httpsChars from rfl]
  simp only [List.append_nil]
  rw [if_neg (by simp [hw])]

theorem tokenAt_of_url (p : Option Char) (cs : List Char)
    (x : List Char × List Char) (h : urlToken cs = some x) :
    tokenAt p cs = some x := by
  unfold tokenAt
  rw [h]

theorem startsWithHttpCI_http (w : List Char) :
    startsWithHttpCI (httpChars ++ w) = true := by
  unfold startsWithHttpCI
  rw [List.map_append]
  rw [show httpChars.map Char.toLower = httpChars from rfl]
  rw [isPrefixOf_append_self]
  simp

theorem startsWithHttpCI_https (w : List Char) :
    startsWithHttpCI (httpsChars ++ w) = true := by
  unfold startsWithHttpCI
  rw [List.map_append]
  rw [show httpsChars.map Char.toLower = httpsChars from rfl]
  rw [isPrefixOf_append_self]
  simp

theorem renderToken_http (w : List Char) :
    renderToken (httpChars ++ w) = renderURL (httpChars ++ w) := by
  unfold renderToken
  rw [startsWithHttpCI_http]
  simp

theorem renderToken_https (w : List Char) :
    renderToken (httpsChars ++ w) = renderURL (httpsChars ++ w) := by
  unfold renderToken
  rw [startsWithHttpCI_https]
  simp

theorem normalizeNewlines_cons_ne (c : Char) (l : List Char) (h : c ≠ '\r') :
    normalizeNewlines (c :: l) = c :: normalizeNewlines l := by
  cases l with
  | nil =>
    simp only [normalizeNewlines]
    rw [if_neg h]
  | cons c2 l2 =>
    simp only [normalizeNewlines]
    rw [if_neg h]

theorem norm_no_cr :
    ∀ (a x : List Char), (∀ c ∈ a, c ≠ '\r') →
      normalizeNewlines (a ++ x) = a ++ normalizeNewlines x := by
  intro a
  induction a with
  | nil => intro x _; rfl
  | cons c a ih =>
    intro x ha
    show normalizeNewlines (c :: (a ++ x)) = _
    rw [normalizeNewlines_cons_ne c _ (ha c (by simp))]
    rw [ih x (fun u hu => ha u (by simp [hu]))]
    rfl

theorem splitOnNl_cons_exists :
    ∀ l : List Char, ∃ h t, splitOnNl l = h :: t := by
  intro l
  induction l with
  | nil => exact ⟨[], [], rfl⟩
  | cons c rest ih =>
    obtain ⟨h1, t1, heq⟩ := ih
    simp only [splitOnNl, heq]
    by_cases hc : c = '\n'
    · rw [if_pos hc]
      exact ⟨[], h1 :: t1, rfl⟩
    · rw [if_neg hc]
      exact ⟨c :: h1, t1, rfl⟩

theorem split_no_nl_append :
    ∀ (a x : List Char), (∀ c ∈ a, c ≠ '\n') →
      splitOnNl (a ++ '\n' :: x) = a :: splitOnNl x := by
  intro a
  induction a with
  | nil =>
    intro x _
    obtain ⟨h1, t1, heq⟩ := splitOnNl_cons_exists x
    show splitOnNl ('\n' :: x) = _
    simp only [splitOnNl, heq]
    simp
  | cons c a ih =>
    intro x ha
    show splitOnNl (c :: (a ++ '\n' :: x)) = _
    have hrec := ih x (fun u hu => ha u (by simp [hu]))
    simp only [splitOnNl, hrec]
    rw [if_neg (ha c (by simp))]

theorem split_no_nl_self :
    ∀ a : List Char, (∀ c ∈ a, c ≠ '\n') → splitOnNl a = [a] := by
  intro a
  induction a with
  | nil => intro _; rfl
  | cons c a ih =>
    intro ha
    have hrec := ih (fun u hu => ha u (by simp [hu]))
    simp only [splitOnNl, hrec]
    rw [if_neg (ha c (by simp))]

/-- C8: `linkifyPlainText` (i) splits its input on line breaks and joins the
per-line results with explicit `<br>` markers; (ii) on a line consisting of
inert text (free of the characters that can start a match), a URL token —
`http://` or `https://` followed by a non-empty run of non-whitespace, the
run ended by the line end or a whitespace character — and inert text, it
escapes the surrounding text and renders the token through `renderURL`,
which wraps the punctuation-trimmed URL in an anchor and re-emits the
trimmed trailing punctuation as escaped plain text outside the anchor; and
(iii) on the spec's concrete example the trailing comma stays outside the
anchor. -/
theorem claim_C8 :
    (∀ (a b : List Char), (∀ c ∈ a, c ≠ '\n' ∧ c ≠ '\r') →
      linkifyPlainText (String.mk (a ++ '\n' :: b)) =
        linkifyPlainText (String.mk a) ++ "<br>" ++ linkifyPlainText (String.mk b)) ∧
    (∀ scheme : List Char, scheme = httpChars ∨ scheme = httpsChars →
      ∀ (pre w post : List Char),
        (∀ c ∈ pre, c ≠ 'h' ∧ c ≠ 'P') →
        w ≠ [] → (∀ c ∈ w, isJsSpace c = false) →
        (∀ c ∈ post, c ≠ 'h' ∧ c ≠ 'P') →
        (post = [] ∨ isJsSpace (post.headD ' ') = true) →
        linkifyLine (pre ++ (scheme ++ (w ++ post))) =
          escapeChars pre ++ renderURL (scheme ++ w) ++ escapeChars post) ∧
    linkifyPlainText "see http://a.co/x, thanks" =
      "see <a href=\"http://a.co/x\" target=\"_blank\" rel=\"noopener noreferrer\">http://a.co/x</a>, thanks" := by
  refine ⟨?_, ?_, by decide⟩
  · intro a b ha
    have haCr : ∀ c ∈ a, c ≠ '\r' := fun c hc => (ha c hc).2
    have haNl : ∀ c ∈ a, c ≠ '\n' := fun c hc => (ha c hc).1
    have hna : normalizeNewlines a = a := by
      have h := norm_no_cr a [] haCr
      rw [List.append_nil] at h
      rw [h, show normalizeNewlines ([] : List Char) = [] from rfl, List.append_nil]
    show String.mk (joinBr ((splitOnNl
      (normalizeNewlines (a ++ '\n' :: b))).map linkifyLine)) = _
    rw [norm_no_cr a ('\n' :: b) haCr, normalizeNewlines_cons_ne '\n' b (by decide)]
    rw [split_no_nl_append a (normalizeNewlines b) haNl]
    obtain ⟨h1, t1, heq⟩ := splitOnNl_cons_exists (normalizeNewlines b)
    rw [heq]
    have hlhs : joinBr ((a :: h1 :: t1).map linkifyLine) =
        linkifyLine a ++ ('<' :: 'b' :: 'r' :: ['>']) ++
          joinBr ((h1 :: t1).map linkifyLine) := rfl
    rw [hlhs]
    have hright1 : linkifyPlainText (String.mk a) = String.mk (linkifyLine a) := by
      show String.mk (joinBr ((splitOnNl (normalizeNewlines a)).map linkifyLine)) = _
      rw [hna, split_no_nl_self a haNl]
      rfl
    have hright2 : linkifyPlainText (String.mk b) =
        String.mk (joinBr ((h1 :: t1).map linkifyLine)) := by
      show String.mk (joinBr ((splitOnNl (normalizeNewlines b)).map linkifyLine)) = _
      rw [heq]
    rw [hright1, hright2]
    rw [show ("<br>" : String) = String.mk ['<', 'b', 'r', '>'] from rfl]
    rw [show String.mk (linkifyLine a) ++ String.mk ['<', 'b', 'r', '>'] ++
        String.mk (joinBr ((h1 :: t1).map linkifyLine)) =
        String.mk ((linkifyLine a ++ ['<', 'b', 'r', '>']) ++
          joinBr ((h1 :: t1).map linkifyLine)) from rfl]
  · intro scheme hscheme pre w post hpre hw hns hpost hhead
    rcases hscheme with rfl | rfl
    · show linkifyFuel (pre ++ (httpChars ++ (w ++ post))).length none
        (pre ++ (httpChars ++ (w ++ post))) = _
      obtain ⟨p2, heq⟩ := linkifyFuel_inert pre none (httpChars ++ (w ++ post))
        (pre ++ (httpChars ++ (w ++ post))).length
        (by simp only [List.length_append]; omega) hpre
      rw [heq]
      have htok : tokenAt p2 (httpChars ++ (w ++ post)) =
          some (httpChars ++ w, post) :=
        tokenAt_of_url p2 _ _ (urlToken_http w post hw hns hhead)
      have hstep : linkifyFuel (httpChars ++ (w ++ post)).length p2
          (httpChars ++ (w ++ post)) =
          renderToken (httpChars ++ w) ++
            linkifyFuel ('t' :: 't' :: 'p' :: ':' :: '/' :: '/' ::
              (w ++ post) : List Char).length
              (some ((httpChars ++ w).getLastD 'h')) post :=
        linkifyFuel_cons_some _ p2 'h' _ _ _ htok
      rw [hstep, renderToken_http]
      rw [linkifyFuel_inert_all post _ _
        (by simp only [List.length_cons, List.length_append]; omega) hpost]
      rw [List.append_assoc]
    · show linkifyFuel (pre ++ (httpsChars ++ (w ++ post))).length none
        (pre ++ (httpsChars ++ (w ++ post))) = _
      obtain ⟨p2, heq⟩ := linkifyFuel_inert pre none (httpsChars ++ (w ++ post))
        (pre ++ (httpsChars ++ (w ++ post))).length
        (by simp only [List.length_append]; omega) hpre
      rw [heq]
      have htok : tokenAt p2 (httpsChars ++ (w ++ post)) =
          some (httpsChars ++ w, post) :=
        tokenAt_of_url p2 _ _ (urlToken_https w post hw hns hhead)
      have hstep : linkifyFuel (httpsChars ++ (w ++ post)).length p2
          (httpsChars ++ (w ++ post)) =
          renderToken (httpsChars ++ w) ++
            linkifyFuel ('t' :: 't' :: 'p' :: 's' :: ':' :: '/' :: '/' ::
              (w ++ post) : List Char).length
              (some ((httpsChars ++ w).getLastD 'h')) post :=
        linkifyFuel_cons_some _ p2 'h' _ _ _ htok
      rw [hstep, renderToken_https]
      rw [linkifyFuel_inert_all post _ _
        (by simp only [List.length_cons, List.length_append]; omega) hpost]
      rw [List.append_assoc]

/-- C8, witness: the single-URL part of the theorem applied to the line
`"see http://a.co/x, ok"`: the comma is trimmed from the link target and
re-emitted outside the anchor. -/
theorem claim_C8_witness :
    linkifyLine ("see ".toList ++ (httpChars ++ ("a.co/x,".toList ++ " ok".toList))) =
      escapeChars "see ".toList ++ renderURL (httpChars ++ "a.co/x,".toList) ++
        escapeChars " ok".toList :=
  claim_C8.2.1 httpChars (Or.inl rfl) "see ".toList "a.co/x,".toList " ok".toList
    (by decide) (by decide) (by decide) (by decide) (by decide)

/-! ### Claim C9 — `sanitizePastedHTML` and font-style stripping -/

theorem splitOnSemi_cons_exists :
    ∀ l : List Char, ∃ h t, splitOnSemi l = h :: t := by
  intro l
  induction l with
  | nil => exact ⟨[], [], rfl⟩
  | cons c rest ih =>
    obtain ⟨h1, t1, heq⟩ := ih
    simp only [splitOnSemi, heq]
    by_cases hc : c = ';'
    · rw [if_pos hc]
      exact ⟨[], h1 :: t1, rfl⟩
    · rw [if_neg hc]
      exact ⟨c :: h1, t1, rfl⟩

theorem splitOnSemi_append_no :
    ∀ (d x : List Char), (∀ c ∈ d, c ≠ ';') →
      splitOnSemi (d ++ ';' :: x) = d :: splitOnSemi x := by
  intro d
  induction d with
  | nil =>
    intro x _
    obtain ⟨h1, t1, heq⟩ := splitOnSemi_cons_exists x
    show splitOnSemi (';' :: x) = _
    simp only [splitOnSemi, heq]
    simp
  | cons c d ih =>
    intro x hd
    show splitOnSemi (c :: (d ++ ';' :: x)) = _
    have hrec := ih x (fun u hu => hd u (by simp [hu]))
    simp only [splitOnSemi, hrec]
    rw [if_neg (hd c (by simp))]

theorem splitOnSemi_self :
    ∀ d : List Char, (∀ c ∈ d, c ≠ ';') → splitOnSemi d = [d] := by
  intro d
  induction d with
  | nil => intro _; rfl
  | cons c d ih =>
    intro hd
    have hrec := ih (fun u hu => hd u (by simp [hu]))
    simp only [splitOnSemi, hrec]
    rw [if_neg (hd c (by simp))]

theorem parts_of_intercalate :
    ∀ ds : List (List Char),
      (∀ d ∈ ds, (∀ c ∈ d, c ≠ ';') ∧ trimChars d = d ∧ d ≠ []) →
      ((splitOnSemi (List.intercalate [';'] ds)).map trimChars).filter
        (fun p => !p.isEmpty) = ds := by
  intro ds
  induction ds with
  | nil => intro _; rfl
  | cons d ds ih =>
    intro hwf
    obtain ⟨hdsemi, hdtrim, hdne⟩ := hwf d (by simp)
    have hwf2 : ∀ u ∈ ds, (∀ c ∈ u, c ≠ ';') ∧ trimChars u = u ∧ u ≠ [] :=
      fun u hu => hwf u (by simp [hu])
    cases ds with
    | nil =>
      rw [show List.intercalate [';'] [d] = d by
        simp [List.intercalate, List.intersperse]]
      rw [splitOnSemi_self d hdsemi]
      simp only [List.map_cons, List.map_nil, hdtrim]
      simp [hdne]
    | cons e rest =>
      rw [show List.intercalate [';'] (d :: e :: rest) =
          d ++ ';' :: List.intercalate [';'] (e :: rest) by
        simp [List.intercalate, List.intersperse]]
      rw [splitOnSemi_append_no d _ hdsemi]
      simp only [List.map_cons, hdtrim]
      rw [show ∀ (l : List (List Char)),
          (d :: l).filter (fun p => !p.isEmpty) = d :: l.filter (fun p => !p.isEmpty) by
        intro l
        have hd2 : (!d.isEmpty) = true := by simp [hdne]
        simp [List.filter, hd2]]
      rw [ih hwf2]

/-- C9: `sanitizePastedHTML`'s style handling.  (i) For every well-formed
inline style attribute — a `;`-separated list of trimmed, non-empty
declarations — `_stripFontStyleDecls` keeps exactly the declarations that
`keepDecl` accepts (those with a colon whose property is none of
`font-family`, `font-size`, `font`), in their original order, joined with
`"; "`; in particular all other declarations of the attribute are
preserved.  (ii) An attribute reduced to nothing is dropped entirely
(`sanitizeStyleAttr` yields `none`).  (iii) The spec's concrete example:
`style="font-family:Arial;color:red"` is reduced to `style="color:red"`,
also through the full `sanitizePastedHTML` tree pass. -/
theorem claim_C9 :
    (∀ ds : List (List Char),
      (∀ d ∈ ds, (∀ c ∈ d, c ≠ ';') ∧ trimChars d = d ∧ d ≠ []) →
      stripFontStyleDecls (String.mk (List.intercalate [';'] ds)) =
        String.mk (joinDecls (ds.filter keepDecl))) ∧
    sanitizeStyleAttr (some "font-family:Arial") = none ∧
    stripFontStyleDecls "font-family:Arial;color:red" = "color:red" ∧
    sanitizeStyleAttr (some "font-family:Arial;color:red") = some "color:red" ∧
    sanitizePastedHTML
      [DomNode.element "DIV" [("style", "font-family:Arial;color:red")]
        [DomNode.text "x"]] =
      [DomNode.element "DIV" [("style", "color:red")] [DomNode.text "x"]] := by
  refine ⟨?_, by decide, by decide, by decide, rfl⟩
  intro ds hwf
  cases hds : ds with
  | nil => rfl
  | cons d rest =>
    rw [← hds]
    have hne : String.mk (List.intercalate [';'] ds) ≠ "" := by
      rw [hds]
      obtain ⟨hdsemi, hdtrim, hdne⟩ := hwf d (by rw [hds]; simp)
      cases rest with
      | nil =>
        rw [show List.intercalate [';'] [d] = d by
          simp [List.intercalate, List.intersperse]]
        cases d with
        | nil => exact absurd rfl hdne
        | cons c cs =>
          intro hcontra
          have h3 : (String.mk (c :: cs)).data = ("" : String).data :=
            congrArg String.data hcontra
          simp at h3
      | cons e r2 =>
        rw [show List.intercalate [';'] (d :: e :: r2) =
            d ++ ';' :: List.intercalate [';'] (e :: r2) by
          simp [List.intercalate, List.intersperse]]
        cases d with
        | nil => exact absurd rfl hdne
        | cons c cs =>
          intro hcontra
          have h3 : (String.mk ((c :: cs) ++ ';' ::
              List.intercalate [';'] (e :: r2))).data = ("" : String).data :=
            congrArg String.data hcontra
          simp at h3
    unfold stripFontStyleDecls
    rw [if_neg hne]
    rw [show (String.mk (List.intercalate [';'] ds)).toList =
      List.intercalate [';'] ds from rfl]
    rw [parts_of_intercalate ds hwf]

/-- C9, witness: the well-formed two-declaration style of the spec's
example run through the general preservation theorem. -/
theorem claim_C9_witness :
    stripFontStyleDecls (String.mk
      (List.intercalate [';'] ["font-family:Arial".toList, "color:red".toList])) =
      String.mk (joinDecls
        (["font-family:Arial".toList, "color:red".toList].filter keepDecl)) :=
  claim_C9.1 ["font-family:Arial".toList, "color:red".toList] (by decide)

end Notebook
